import Mathlib

/-!
Verification development for the onebrc parallel aggregation engine
(`main.go`, `fasthash.go`). Go code is shallowly embedded: `uint64` /
`int64` values are `Nat` bit patterns with explicit `% 2^64` where
overflow matters, the mmapped byte region is a function `Nat → Nat`
(bytes past the mapping read as 0, mirroring page padding), pointers
into the dense `cache` array are slot indices, and unbounded loops take
explicit fuel and return `Option`.
-/

set_option maxHeartbeats 4000000
set_option maxRecDepth 100000

namespace OneBRC

/-! ### 64-bit machine integer primitives -/

/-- 2^64, the modulus of Go `uint64` / `int64` arithmetic. -/
def U64 : Nat := 2 ^ 64

/-- Go `^x` (bitwise complement) on a 64-bit value. -/
def i64not (x : Nat) : Nat := x ^^^ (U64 - 1)

/-- Go `x << s` on a 64-bit value (truncating shift). -/
def i64shl (x s : Nat) : Nat := (x <<< s) % U64

/-- Go arithmetic `>> 32` on an `int64` bit pattern. -/
def i64sar32 (x : Nat) : Nat :=
  if x.testBit 63 then (x >>> 32) ||| 0xFFFFFFFF00000000 else x >>> 32

/-- Go arithmetic `>> 63` on an `int64` bit pattern: all bits copy the sign. -/
def i64sar63 (x : Nat) : Nat := if x.testBit 63 then U64 - 1 else 0

/-- Reinterpret a 64-bit pattern as a signed two's-complement integer. -/
def toInt64 (x : Nat) : Int := if x < 2 ^ 63 then (x : Int) else (x : Int) - (U64 : Int)

/-- Fuelled trailing-zero counter; with fuel 64 it models Go
`bits.TrailingZeros64` (which returns 64 on input 0). -/
def tzAux : Nat → Nat → Nat
  | 0, _ => 0
  | fuel + 1, x => if x % 2 = 1 then 0 else 1 + tzAux fuel (x / 2)

/-- Model of Go `bits.TrailingZeros64`. -/
def tz64 (x : Nat) : Nat := tzAux 64 x

/-! ### fasthash.go -/

/-- A bucket entry: 64-bit key plus index into the dense `cache` array. -/
structure entry where
  key : Nat
  mid : Nat
deriving DecidableEq

/-- `nBuckets = 1 << 12` from fasthash.go. -/
def nBuckets : Nat := 1 <<< 12

/-- The `Map` of fasthash.go: a fixed bucket array of `(key, mid)` entries
plus a dense append-only `cache` of values. -/
structure Map (V : Type) where
  buckets : List (List entry)
  cache : List V
deriving DecidableEq

/-- `NewHashMap`: `nBuckets` empty buckets and an empty cache. -/
def NewHashMap (V : Type) : Map V :=
  { buckets := List.replicate nBuckets [], cache := [] }

/-- `GetUsingHash`: scan the bucket `hash & (nBuckets-1)` front to back for
the first entry whose key equals `hash`; Go's `(value, ok)` pair becomes
`Option`. -/
def GetUsingHash {V : Type} (m : Map V) (hash : Nat) : Option V :=
  let i := hash &&& (nBuckets - 1)
  ((m.buckets.getD i []).find? (fun e => e.key == hash)).bind
    (fun e => m.cache.get? e.mid)

/-- The slot index `GetUsingHash` would dereference: Go returns a pointer
into `cache`, modelled as the index `mid`. -/
def GetMid {V : Type} (m : Map V) (hash : Nat) : Option Nat :=
  ((m.buckets.getD (hash &&& (nBuckets - 1)) []).find? (fun e => e.key == hash)).map entry.mid

/-- `SetUsingHash`: append a `(hash, len(cache))` entry to the bucket and
append the value to `cache`. -/
def SetUsingHash {V : Type} (m : Map V) (hash : Nat) (value : V) : Map V :=
  let i := hash &&& (nBuckets - 1)
  { buckets := m.buckets.set i ((m.buckets.getD i []) ++ [{ key := hash, mid := m.cache.length }]),
    cache := m.cache ++ [value] }

/-- FNV-1a prime from fasthash.go. -/
def prime64 : Nat := 1099511628211

/-- FNV-1a offset basis from fasthash.go. -/
def offset64 : Nat := 14695981039346656037

/-- `Init64 = offset64`. -/
def Init64 : Nat := offset64

/-- One FNV-1a step `h = (h ^ c) * prime64` in `uint64` arithmetic. -/
def fnvStep (h c : Nat) : Nat := ((h ^^^ c) * prime64) % U64

/-- The trailing `if len(b) > 0` step of `AddBytes64`. -/
def addTail1 : List Nat → Nat → Nat
  | [], h => h
  | b0 :: _, h => fnvStep h b0

/-- The `if len(b) >= 2` step of `AddBytes64` followed by the tail. -/
def addTail2 : List Nat → Nat → Nat
  | b0 :: b1 :: rest, h => addTail1 rest (fnvStep (fnvStep h b0) b1)
  | b, h => addTail1 b h

/-- The `if len(b) >= 4` step of `AddBytes64` followed by the tails. -/
def addTail4 : List Nat → Nat → Nat
  | b0 :: b1 :: b2 :: b3 :: rest, h =>
      addTail2 rest (fnvStep (fnvStep (fnvStep (fnvStep h b0) b1) b2) b3)
  | b, h => addTail2 b h

/-- The `for len(b) >= 8` loop of `AddBytes64` followed by the tails. -/
def addLoop8 : List Nat → Nat → Nat
  | b0 :: b1 :: b2 :: b3 :: b4 :: b5 :: b6 :: b7 :: rest, h =>
      addLoop8 rest
        (fnvStep (fnvStep (fnvStep (fnvStep (fnvStep (fnvStep (fnvStep (fnvStep h b0) b1) b2) b3) b4) b5) b6) b7)
  | b, h => addTail4 b h

/-- `AddBytes64` from fasthash.go, including its peculiar `len >= 16`
prelude that hashes the whole slice and then reprocesses `b[16:]`. -/
def AddBytes64 (h : Nat) (b : List Nat) : Nat :=
  if b.length ≥ 16 then addLoop8 (b.drop 16) (b.foldl fnvStep h)
  else addLoop8 b h

/-- `HashBytes64 b = AddBytes64 Init64 b`. -/
def HashBytes64 (b : List Nat) : Nat := AddBytes64 Init64 b

/-- `SetBytes`: hash the key with `HashBytes64`, then insert like
`SetUsingHash`. -/
def SetBytes {V : Type} (m : Map V) (key : List Nat) (value : V) : Map V :=
  let hash := HashBytes64 key
  let i := hash &&& (nBuckets - 1)
  { buckets := m.buckets.set i ((m.buckets.getD i []) ++ [{ key := hash, mid := m.cache.length }]),
    cache := m.cache ++ [value] }

/-! ### main.go: scanner and SWAR primitives

The mmapped file is a byte region `Nat → Nat`; a `Scanner` carries a
position and an exclusive end, the region itself being passed alongside. -/

/-- A sub-scanner: current position and exclusive end offset. The source
`Scanner` also carries the base pointer, which here is the region
argument; its `end` field is called `endPos`. -/
structure Scanner where
  position : Nat
  endPos : Nat
deriving DecidableEq

/-- `hasNext`. -/
def Scanner.hasNext (s : Scanner) : Bool := s.position < s.endPos

/-- `getByteAt`. -/
def getByteAt (region : Nat → Nat) (pos : Nat) : Nat := region pos

/-- `getLongAt`: unaligned little-endian 64-bit load at `pos`. -/
def getLongAt (region : Nat → Nat) (pos : Nat) : Nat :=
  region pos + 256 * (region (pos + 1) + 256 * (region (pos + 2) + 256 * (region (pos + 3) +
    256 * (region (pos + 4) + 256 * (region (pos + 5) + 256 * (region (pos + 6) +
    256 * region (pos + 7)))))))

/-- `MASK1` from main.go: `MASK1[i]` keeps bytes `0..i`. -/
def MASK1 : List Nat :=
  [0xFF, 0xFFFF, 0xFFFFFF, 0xFFFFFFFF, 0xFFFFFFFFFF, 0xFFFFFFFFFFFF, 0xFFFFFFFFFFFFFF,
   0xFFFFFFFFFFFFFFFF, 0xFFFFFFFFFFFFFFFF]

/-- `MASK2` from main.go: zero for indices 0..7, all-ones for index 8. -/
def MASK2 : List Nat := [0, 0, 0, 0, 0, 0, 0, 0, 0xFFFFFFFFFFFFFFFF]

/-- `findDelimiter`: SWAR search for the byte `0x3B` (';') in a 64-bit word. -/
def findDelimiter (word : Nat) : Nat :=
  let input := word ^^^ 0x3B3B3B3B3B3B3B3B
  ((input + U64 - 0x0101010101010101) % U64) &&& i64not input &&& 0x8080808080808080

/-- `nextNewLine`: first offset `≥ prev` holding `0x0A`, by the same SWAR
trick; fuelled, `none` models the source looping past the mapping. -/
def nextNewLine (region : Nat → Nat) : Nat → Nat → Option Nat
  | 0, _ => none
  | fuel + 1, prev =>
    let currentWord := getLongAt region prev
    let input := currentWord ^^^ 0x0A0A0A0A0A0A0A0A
    let pos := ((input + U64 - 0x0101010101010101) % U64) &&& i64not input &&& 0x8080808080808080
    if pos ≠ 0 then some (prev + (tz64 pos >>> 3))
    else nextNewLine region fuel (prev + 8)

/-- `convertIntoNumber`: Quan Anh Mai's branch-free ASCII decoder. The Go
`28 - decimalSepPos` shift is truncated `Nat` subtraction; for a
`decimalSepPos` above 28 the Go program would panic on a negative shift
count, and no theorem below evaluates that case. -/
def convertIntoNumber (decimalSepPos : Nat) (numberWord : Nat) : Int :=
  let shift := 28 - decimalSepPos
  let signed := i64sar63 (i64not (i64shl numberWord 59))
  let designMask := i64not (signed &&& 0xFF)
  let digits := i64shl (numberWord &&& designMask) shift &&& 0x0F000F0F00
  let absValue := i64sar32 ((digits * 0x640a0001) % U64) &&& 0x3FF
  toInt64 (((absValue ^^^ signed) + U64 - signed) % U64)

/-- `scanNumber`: decode the temperature after the ';' at `pos` and return
it with the advanced position (the source advances the scanner by
`decimalSepPos/8 + 4`). -/
def scanNumber (region : Nat → Nat) (pos : Nat) : Int × Nat :=
  let numberWord := getLongAt region (pos + 1)
  let decimalSepPos := tz64 (i64not numberWord &&& 0x10101000)
  let number := convertIntoNumber decimalSepPos numberWord
  (number, pos + ((decimalSepPos >>> 3) + 4))

/-! ### main.go: station records and findResult -/

/-- `MAX_TEMP`. -/
def MAX_TEMP : Int := 999

/-- `MIN_TEMP`. -/
def MIN_TEMP : Int := -999

/-- `StationData`, minus the `name` string which is populated only at
merge time (the merger model materializes names separately). -/
structure StationData where
  MaxTemp : Int
  MinTemp : Int
  Sum : Int
  Count : Int
  nameAddress : Nat
  nameLength : Nat
deriving DecidableEq, Inhabited

/-- `record`: fold one observation into a station record. The source
sequences two `if` statements and two updates; since each reads fields
the earlier ones do not write, the simultaneous update is identical. -/
def record (station : StationData) (temp : Int) : StationData :=
  { station with
    MinTemp := if temp < station.MinTemp then temp else station.MinTemp,
    MaxTemp := if temp > station.MaxTemp then temp else station.MaxTemp,
    Sum := station.Sum + temp,
    Count := station.Count + 1 }

/-- The record `findResult` inserts on a miss: `MinTemp := MAX_TEMP`,
`MaxTemp := MIN_TEMP`, `Count := 0`, `Sum` left at its zero value, plus
the name span. -/
def freshStation (nameAddress nameLength : Nat) : StationData :=
  { MinTemp := MAX_TEMP, MaxTemp := MIN_TEMP, Sum := 0, Count := 0,
    nameAddress := nameAddress, nameLength := nameLength }

/-- The slow-path loop of `findResult`: XOR-fold 8-byte words until one
contains the ';', then fold in that word shifted by `63 - trailingZeros`.
Returns the final hash and the position of the ';'. -/
def hashLoop (region : Nat → Nat) : Nat → Nat → Nat → Option (Nat × Nat)
  | 0, _, _ => none
  | fuel + 1, pos, hash =>
    let word := getLongAt region pos
    let delimiterMask := findDelimiter word
    if delimiterMask ≠ 0 then
      let trailingZeros := tz64 delimiterMask
      some (hash ^^^ i64shl word (63 - trailingZeros), pos + (trailingZeros >>> 3))
    else hashLoop region fuel (pos + 8) (hash ^^^ word)

/-- The pure part of `findResult`: from the scanner position at the start
of a record, compute the 64-bit name hash and the position of the ';'
(where the source leaves the scanner). The two words and delimiter masks
the caller passes in are recomputed here from the region. -/
def findResultHash (region : Nat → Nat) (fuel pos : Nat) : Option (Nat × Nat) :=
  let word := getLongAt region pos
  let delimiterMask := findDelimiter word
  let word2 := getLongAt region (pos + 8)
  let delimiterMask2 := findDelimiter word2
  if delimiterMask ||| delimiterMask2 ≠ 0 then
    let letterCount1 := tz64 delimiterMask >>> 3
    let letterCount2 := tz64 delimiterMask2 >>> 3
    let mask := MASK2.getD letterCount1 0
    some ((word &&& MASK1.getD letterCount1 0) ^^^ (mask &&& word2 &&& MASK1.getD letterCount2 0),
          pos + (letterCount1 + (letterCount2 &&& mask)))
  else
    hashLoop region fuel (pos + 16) (word ^^^ getLongAt region (pos + 8))

/-- `findResult`: look the hash up in the per-worker table; on a miss,
insert a fresh record (`MinTemp := MAX_TEMP`, `MaxTemp := MIN_TEMP`,
`Count := 0`, `Sum` zero-valued) holding the name span. The Go pointer
result is the `cache` slot index. -/
def findResult (region : Nat → Nat) (fuel : Nat) (m : Map StationData) (pos : Nat) :
    Option (Nat × Nat × Map StationData) :=
  match findResultHash region fuel pos with
  | none => none
  | some (hash, pos2) =>
    match GetMid m hash with
    | some mid => some (mid, pos2, m)
    | none =>
      some (m.cache.length, pos2, SetUsingHash m hash (freshStation pos (pos2 - pos)))

/-- Apply `record` through the Go pointer: update the cache slot `mid`. -/
def recordAt (m : Map StationData) (mid : Nat) (temp : Int) : Map StationData :=
  { m with cache := m.cache.set mid (record (m.cache.getD mid default) temp) }

/-! ### main.go: readUsingMMAP -/

/-- The interleaved four-scanner loop of `readUsingMMAP`: while all four
sub-scanners have input, run `findResult` for each in order, then
`scanNumber` for each, then `record` for each, exactly as the source
sequences them. -/
def quadLoop (region : Nat → Nat) (frFuel : Nat) :
    Nat → Scanner → Scanner → Scanner → Scanner → Map StationData →
    Option (Scanner × Scanner × Scanner × Scanner × Map StationData)
  | 0, _, _, _, _, _ => none
  | fuel + 1, s1, s2, s3, s4, m =>
    if s1.hasNext ∧ s2.hasNext ∧ s3.hasNext ∧ s4.hasNext then do
      let (mid1, q1, m1) ← findResult region frFuel m s1.position
      let (mid2, q2, m2) ← findResult region frFuel m1 s2.position
      let (mid3, q3, m3) ← findResult region frFuel m2 s3.position
      let (mid4, q4, m4) ← findResult region frFuel m3 s4.position
      let (temp1, r1) := scanNumber region q1
      let (temp2, r2) := scanNumber region q2
      let (temp3, r3) := scanNumber region q3
      let (temp4, r4) := scanNumber region q4
      let m5 := recordAt m4 mid1 temp1
      let m6 := recordAt m5 mid2 temp2
      let m7 := recordAt m6 mid3 temp3
      let m8 := recordAt m7 mid4 temp4
      quadLoop region frFuel fuel ⟨r1, s1.endPos⟩ ⟨r2, s2.endPos⟩ ⟨r3, s3.endPos⟩ ⟨r4, s4.endPos⟩ m8
    else some (s1, s2, s3, s4, m)

/-- One of the four sequential drain loops that follow the interleaved
loop: process records while the scanner has input. -/
def drainLoop (region : Nat → Nat) (frFuel : Nat) :
    Nat → Scanner → Map StationData → Option (Map StationData)
  | 0, _, _ => none
  | fuel + 1, s, m =>
    if s.hasNext then do
      let (mid, q, m1) ← findResult region frFuel m s.position
      let (temp, r) := scanNumber region q
      drainLoop region frFuel fuel ⟨r, s.endPos⟩ (recordAt m1 mid temp)
    else some m

/-- `readUsingMMAP`: fix the logical chunk `[segmentStart, segmentEnd]`
by newline-seeking, split it at three quartile newlines into four
sub-scanners, and process them. `dist` is computed with `uint64`
wrap-around exactly as in Go, so a degenerate chunk with
`segmentStart = segmentEnd + 1` produces a huge `dist` (the source reads
wild addresses there; the model runs out of fuel and yields `none`). -/
def readUsingMMAP (region : Nat → Nat) (fuel : Nat) (m : Map StationData)
    (offset bytesToRead maxAvailable : Nat) : Option (Map StationData) := do
  let segmentEnd ← nextNewLine region fuel (min (maxAvailable - 1) (offset + bytesToRead))
  let segmentStart ←
    if offset = 0 then some offset
    else (nextNewLine region fuel offset).map (· + 1)
  let dist := ((segmentEnd + U64 - segmentStart % U64) % U64) / 4
  let midPoint1 ← nextNewLine region fuel (segmentStart + dist)
  let midPoint2 ← nextNewLine region fuel (segmentStart + dist + dist)
  let midPoint3 ← nextNewLine region fuel (segmentStart + dist + dist + dist)
  let (s1, s2, s3, s4, m) ← quadLoop region fuel fuel
    ⟨segmentStart, midPoint1⟩ ⟨midPoint1 + 1, midPoint2⟩ ⟨midPoint2 + 1, midPoint3⟩
    ⟨midPoint3 + 1, segmentEnd⟩ m
  let m ← drainLoop region fuel fuel s1 m
  let m ← drainLoop region fuel fuel s2 m
  let m ← drainLoop region fuel fuel s3 m
  let m ← drainLoop region fuel fuel s4 m
  some m

/-! ### main.go: dispatcher, workers, merger -/

/-- The dispatcher goroutine of `createWorkers`: enumerate
`i = 0, chunkSize, 2·chunkSize, …` while `i < size`, sending `i` only
when `i + chunkSize < size + 128`. -/
def dispatcherLoop (size parseChunkSize : Nat) : Nat → Nat → List Nat
  | 0, _ => []
  | fuel + 1, i =>
    if i < size then
      (if i + parseChunkSize < size + 128 then [i] else []) ++
        dispatcherLoop size parseChunkSize fuel (i + parseChunkSize)
    else []

/-- The offsets actually sent on the chunk channel. -/
def chunkOffsets (size numParsers : Nat) : List Nat :=
  dispatcherLoop size (size / numParsers) (size / (size / numParsers) + 2) 0

/-- One worker goroutine: fold `readUsingMMAP` over the chunk offsets it
drains, with `maxAvailable = min(offset + chunkSize + 128, size)`,
starting from a fresh `NewHashMap`. -/
def runWorker (region : Nat → Nat) (fuel parseChunkSize size : Nat) (offsets : List Nat) :
    Option (Map StationData) :=
  offsets.foldlM
    (fun m chunkOffset =>
      readUsingMMAP region fuel m chunkOffset parseChunkSize
        (min (chunkOffset + parseChunkSize + 128) size))
    (NewHashMap StationData)

/-- The merge step of `createWorkers` for an already-present station:
min of minima, max of maxima, sum of sums, sum of counts (the source
sequences the two `if` statements and the two additions; the
simultaneous update is identical). -/
def combineStats (ms s : StationData) : StationData :=
  { ms with
    MinTemp := if s.MinTemp < ms.MinTemp then s.MinTemp else ms.MinTemp,
    MaxTemp := if s.MaxTemp > ms.MaxTemp then s.MaxTemp else ms.MaxTemp,
    Sum := ms.Sum + s.Sum,
    Count := ms.Count + s.Count }

/-- Materialize a station name from its span in the byte region. -/
def nameBytes (region : Nat → Nat) (s : StationData) : List Nat :=
  (List.range s.nameLength).map (fun k => region (s.nameAddress + k))

/-- Insert one published slot into the final map (an association list
keyed by the materialized name): move it in when absent, combine when
present. -/
def insertMerge : List (List Nat × StationData) → List Nat → StationData →
    List (List Nat × StationData)
  | [], n, s => [(n, s)]
  | (k, v) :: rest, n, s =>
    if k == n then (k, combineStats v s) :: rest else (k, v) :: insertMerge rest n s

/-- Drain one published per-worker table into the final map, visiting its
`cache` slots in order. -/
def mergeTable (region : Nat → Nat) (fm : List (List Nat × StationData))
    (m : Map StationData) : List (List Nat × StationData) :=
  m.cache.foldl (fun fm s => insertMerge fm (nameBytes region s) s) fm

/-- Look a station up in the final map. -/
def finalFind (fm : List (List Nat × StationData)) (n : List Nat) : Option StationData :=
  (fm.find? (fun p => p.1 == n)).map (fun p => p.2)

/-- The whole engine under the schedule in which each sent chunk offset is
drained by its own worker (with `numParsers` at least the number of sent
offsets this is a realizable schedule; the merger combines the published
tables in channel order). -/
def pipelineResult (region : Nat → Nat) (fuel size numParsers : Nat) :
    Option (List (List Nat × StationData)) :=
  let parseChunkSize := size / numParsers
  ((chunkOffsets size numParsers).mapM
      (fun o => runWorker region fuel parseChunkSize size [o])).map
    (fun tables => tables.foldl (mergeTable region) [])

/-- Total observation count in the final map. -/
def sumCounts (fm : List (List Nat × StationData)) : Int :=
  fm.foldl (fun a p => a + p.2.Count) 0

/-- Number of records in the input: one per `0x0A` byte. -/
def countNewlines (region : Nat → Nat) (size : Nat) : Nat :=
  ((List.range size).filter (fun i => region i == 10)).length

/-! ### A concrete well-formed input on which the dispatcher drops records

With `size = 1087` and 8 workers, `parseChunkSize = 1087 / 8 = 135`; the
dispatcher enumerates offsets `0, 135, …, 945, 1080` but sends `1080`
only if `1080 + 135 < 1087 + 128`, which fails (`1215 < 1215` is false),
so the chunk containing the last record is never dispatched, while the
worker at offset 945 stops at the newline at offset 1080. The input: ten
106-byte records (name `zzz…z` of 100 bytes, temperature `12.3`), one
21-byte record (name `yyy…y` of 15 bytes, temperature `12.3`) ending
with the newline at offset 1080, and the final record `a;9.9\n` at
offsets 1081–1086. -/

/-- Bytes of `;12.3\n`, the tail shared by the first eleven records. -/
def tailz : List Nat := [59, 49, 50, 46, 51, 10]

/-- Bytes of the final record `a;9.9\n`. -/
def recA99 : List Nat := [97, 59, 57, 46, 57, 10]

/-- The 1087-byte input described above; offsets past the file read 0. -/
def region1087 : Nat → Nat := fun i =>
  if i < 1060 then (if i % 106 < 100 then 122 else tailz.getD (i % 106 - 100) 0)
  else if i < 1081 then (if i - 1060 < 15 then 121 else tailz.getD (i - 1075) 0)
  else if i < 1087 then recA99.getD (i - 1081) 0
  else 0

/-! ### Abstractions used by the invariant and algebraic claims -/

/-- The per-station invariant stated in the spec: `min_temp ≤ max_temp`,
`count ≥ 1`, `|sum| ≤ count · 999`. -/
def StationInv (s : StationData) : Prop :=
  s.MinTemp ≤ s.MaxTemp ∧ 1 ≤ s.Count ∧ |s.Sum| ≤ s.Count * 999

/-- The four aggregate components of a station record (the name span is
carried along by the merge but is not part of the combine algebra). -/
def statsOf (s : StationData) : Int × Int × Int × Int :=
  (s.MinTemp, s.MaxTemp, s.Sum, s.Count)

/-- Fold the slots of a list of published `(name, slot)` pairs into a
final map with the merge rule of `createWorkers`. -/
def mergeSlots (fm : List (List Nat × StationData)) (l : List (List Nat × StationData)) :
    List (List Nat × StationData) :=
  l.foldl (fun fm p => insertMerge fm p.1 p.2) fm

/-- Fold one parsed observation into a name-keyed aggregate: the
`record` update on the station's slot, first observation applied to a
fresh record exactly as a worker does after `findResult` inserts it. -/
def insertObs : List (List Nat × StationData) → List Nat → Int → List (List Nat × StationData)
  | [], n, t => [(n, record (freshStation 0 0) t)]
  | (k, v) :: rest, n, t =>
    if k == n then (k, record v t) :: rest else (k, v) :: insertObs rest n t

/-- Aggregate a list of `(name, temperature)` observations. -/
def obsAggregate (l : List (List Nat × Int)) : List (List Nat × StationData) :=
  l.foldl (fun fm p => insertObs fm p.1 p.2) []

/-- The merge update applied per key: first slot moves in, later slots
combine. -/
def mergeUpd (o : Option StationData) (s : StationData) : StationData :=
  match o with
  | none => s
  | some v => combineStats v s

/-- The observation update applied per key: `record` on the existing
slot, or on a fresh record for the first observation. -/
def obsUpd (o : Option StationData) (t : Int) : StationData :=
  record (o.getD (freshStation 0 0)) t

/-- Fold a sequence of `SetUsingHash` operations into a fresh map. -/
def buildMap {V : Type} (ops : List (Nat × V)) : Map V :=
  ops.foldl (fun m p => SetUsingHash m p.1 p.2) (NewHashMap V)

/-- The value of the earliest operation in a sequence whose hash is `h`. -/
def earliestValue {V : Type} (ops : List (Nat × V)) (h : Nat) : Option V :=
  (ops.find? (fun p => p.1 == h)).map (fun p => p.2)


/-! ### Byte-level model of the SWAR mask (for the findDelimiter claims) -/

/-- Little-endian byte list to machine word. -/
def wordOfBytes : List Nat → Nat
  | [] => 0
  | b :: bs => b + 256 * wordOfBytes bs

/-- The constant `0x0101…01` with `n` bytes. -/
def onesM : Nat → Nat
  | 0 => 0
  | n + 1 => 1 + 256 * onesM n

/-- Bytewise subtraction of `0x01…01` with ripple borrow. -/
def subOnes : List Nat → Nat → List Nat
  | [], _ => []
  | b :: bs, brw => (b + 256 - 1 - brw) % 256 :: subOnes bs (if b < 1 + brw then 1 else 0)

/-- One byte of `(x - 0x01…01) & ^x & 0x80…80`. -/
def maskByte (s x : Nat) : Nat := s &&& (x ^^^ 255) &&& 0x80

/-- Bytewise model of the SWAR zero-byte mask inside `findDelimiter`. -/
def swarMaskBytes (xs : List Nat) : List Nat := List.zipWith maskByte (subOnes xs 0) xs

/-- Byte `i` of a little-endian word. -/
def byteAt (w i : Nat) : Nat := w / 256 ^ i % 256

/-- The 8 bytes of a 64-bit word. -/
def bytesOf (w : Nat) : List Nat := (List.range 8).map (byteAt w)


/-! ### Well-formed temperature fields (for the scanNumber claim) -/

/-- The characters of a temperature field `-?\d{1,2}\.\d`, by sign and
integer-digit count; `d1` is the tens digit (ignored when absent),
`d2` the ones digit, `u` the tenths digit. -/
def tempChars : Bool → Bool → Nat → Nat → Nat → List Nat
  | false, false, _, d2, u => [48 + d2, 46, 48 + u]
  | false, true, d1, d2, u => [48 + d1, 48 + d2, 46, 48 + u]
  | true, false, _, d2, u => [45, 48 + d2, 46, 48 + u]
  | true, true, d1, d2, u => [45, 48 + d1, 48 + d2, 46, 48 + u]

/-- The value of a temperature field in scaled tenths,
`sign · (100·h + 10·t + u)`. -/
def tempValue : Bool → Bool → Nat → Nat → Nat → Int
  | false, false, _, d2, u => ((10 * d2 + u : Nat) : Int)
  | false, true, d1, d2, u => ((100 * d1 + 10 * d2 + u : Nat) : Int)
  | true, false, _, d2, u => -((10 * d2 + u : Nat) : Int)
  | true, true, d1, d2, u => -((100 * d1 + 10 * d2 + u : Nat) : Int)


/-! ### Name-hash characterization (for the findResult hash claim)

`tailFold` and `nameHash` restate, as a function of the name bytes alone,
the hash the spec describes: the first word masked to the name prefix when
the ';' lies in bytes 0-7, the XOR of two masked words when it lies in
bytes 8-15, and an XOR-fold of the following 8-byte words (the word
holding the ';' folded in shifted by `63 - trailingZeros`) for longer
names. They are compared with `findResultHash` below. -/

/-- XOR-fold of the tail of a long name (`l` is the remaining name bytes
with the terminating ';' appended): full 8-byte words fold in whole, the
final word (holding the ';' as its last byte) folds in shifted left so
that only the bytes up to the ';' survive. -/
def tailFold : List Nat → Nat
  | b0 :: b1 :: b2 :: b3 :: b4 :: b5 :: b6 :: b7 :: b8 :: rest =>
      wordOfBytes [b0, b1, b2, b3, b4, b5, b6, b7] ^^^ tailFold (b8 :: rest)
  | l => i64shl (wordOfBytes l) (64 - 8 * l.length)

/-- The 64-bit hash key of a station as a function of its name bytes,
following the spec's three cases. -/
def nameHash (ns : List Nat) : Nat :=
  if ns.length ≤ 7 then wordOfBytes (ns ++ [59])
  else if ns.length ≤ 15 then
    wordOfBytes (ns.take 8) ^^^ wordOfBytes (ns.drop 8 ++ [59])
  else
    (wordOfBytes (ns.take 8) ^^^ wordOfBytes ((ns.drop 8).take 8)) ^^^
      tailFold (ns.drop 16 ++ [59])

/-! ## Theorems -/


theorem finalFind_cons (p : List Nat × StationData) (l : List (List Nat × StationData))
    (k : List Nat) :
    finalFind (p :: l) k = if p.1 = k then some p.2 else finalFind l k := by
  obtain ⟨k0, v⟩ := p
  simp only [finalFind, List.find?]
  by_cases h : k0 = k
  · simp [h]
  · simp [h, (by simpa using h : ¬ (k0 == k) = true)]

theorem record_record_comm (s : StationData) (t1 t2 : Int) :
    record (record s t1) t2 = record (record s t2) t1 := by
  cases s
  simp only [record, StationData.mk.injEq]
  and_intros <;> first | trivial | (split_ifs <;> omega) | omega

theorem combine_assoc_full (a b c : StationData) :
    combineStats (combineStats a b) c = combineStats a (combineStats b c) := by
  cases a
  simp only [combineStats, StationData.mk.injEq]
  and_intros <;> first | trivial | (split_ifs <;> omega) | omega

theorem combine_comm_stats (a b : StationData) :
    statsOf (combineStats a b) = statsOf (combineStats b a) := by
  simp only [combineStats, statsOf, Prod.mk.injEq]
  and_intros <;> first | trivial | (split_ifs <;> omega) | omega

theorem statsOf_record_congr (s1 s2 : StationData) (t : Int) (h : statsOf s1 = statsOf s2) :
    statsOf (record s1 t) = statsOf (record s2 t) := by
  simp only [statsOf, Prod.mk.injEq] at h
  obtain ⟨h1, h2, h3, h4⟩ := h
  simp only [record, statsOf, Prod.mk.injEq, h1, h2, h3, h4]

theorem statsOf_combine_congr (v1 v2 s1 s2 : StationData) (hv : statsOf v1 = statsOf v2)
    (hs : statsOf s1 = statsOf s2) :
    statsOf (combineStats v1 s1) = statsOf (combineStats v2 s2) := by
  simp only [statsOf, Prod.mk.injEq] at hv hs
  obtain ⟨a1, a2, a3, a4⟩ := hv
  obtain ⟨b1, b2, b3, b4⟩ := hs
  simp only [combineStats, statsOf, Prod.mk.injEq, a1, a2, a3, a4, b1, b2, b3, b4]

theorem finalFind_insertMerge (fm : List (List Nat × StationData)) (n : List Nat)
    (s : StationData) (k : List Nat) :
    finalFind (insertMerge fm n s) k =
      if k = n then some (mergeUpd (finalFind fm n) s)
      else finalFind fm k := by
  induction fm with
  | nil =>
    by_cases h : k = n
    · subst h; simp [insertMerge, finalFind_cons, finalFind, mergeUpd]
    · simp [insertMerge, finalFind_cons, finalFind, h, Ne.symm h]
  | cons p rest ih =>
    obtain ⟨k0, v⟩ := p
    by_cases h1 : k0 = n
    · subst h1
      simp only [insertMerge, beq_iff_eq, if_pos rfl, reduceIte]
      by_cases h2 : k = k0
      · subst h2; simp [finalFind_cons, mergeUpd]
      · simp [finalFind_cons, Ne.symm h2, h2]
    · simp only [insertMerge, beq_iff_eq, if_neg h1]
      by_cases h2 : k = k0
      · subst h2
        simp [finalFind_cons, h1, Ne.symm h1]
      · simp only [finalFind_cons, if_neg (fun hh => h2 (Eq.symm hh)), ih]
        by_cases h3 : k = n
        · simp [h3, finalFind_cons, if_neg (fun hh => h2 (Eq.symm hh)), h1]
        · simp [h3]

theorem finalFind_insertObs (fm : List (List Nat × StationData)) (n : List Nat)
    (t : Int) (k : List Nat) :
    finalFind (insertObs fm n t) k =
      if k = n then some (obsUpd (finalFind fm n) t)
      else finalFind fm k := by
  induction fm with
  | nil =>
    by_cases h : k = n
    · subst h; simp [insertObs, finalFind_cons, finalFind, obsUpd]
    · simp [insertObs, finalFind_cons, finalFind, h, Ne.symm h]
  | cons p rest ih =>
    obtain ⟨k0, v⟩ := p
    by_cases h1 : k0 = n
    · subst h1
      simp only [insertObs, beq_iff_eq, if_pos rfl, reduceIte]
      by_cases h2 : k = k0
      · subst h2; simp [finalFind_cons, obsUpd]
      · simp [finalFind_cons, Ne.symm h2, h2]
    · simp only [insertObs, beq_iff_eq, if_neg h1]
      by_cases h2 : k = k0
      · subst h2
        simp [finalFind_cons, h1, Ne.symm h1]
      · simp only [finalFind_cons, if_neg (fun hh => h2 (Eq.symm hh)), ih]
        by_cases h3 : k = n
        · simp [h3, finalFind_cons, if_neg (fun hh => h2 (Eq.symm hh)), h1]
        · simp [h3]

theorem foldl_findStats_congr {A : Type}
    (step : List (List Nat × StationData) → List Nat × A → List (List Nat × StationData))
    (upd : Option StationData → A → StationData)
    (hstep : ∀ fm p k, finalFind (step fm p) k =
      if k = p.1 then some (upd (finalFind fm p.1) p.2) else finalFind fm k)
    (hcong : ∀ o1 o2 a, o1.map statsOf = o2.map statsOf →
      statsOf (upd o1 a) = statsOf (upd o2 a)) :
    ∀ (l : List (List Nat × A)) (fm1 fm2 : List (List Nat × StationData)),
      (∀ k, (finalFind fm1 k).map statsOf = (finalFind fm2 k).map statsOf) →
      ∀ k, (finalFind (l.foldl step fm1) k).map statsOf =
        (finalFind (l.foldl step fm2) k).map statsOf := by
  intro l
  induction l with
  | nil => intro fm1 fm2 h k; exact h k
  | cons p t ih =>
    intro fm1 fm2 h k
    simp only [List.foldl_cons]
    apply ih
    intro k2
    by_cases hk : k2 = p.1
    · simp only [hstep, if_pos hk, Option.map_some']
      exact congrArg some (hcong _ _ _ (h p.1))
    · simp only [hstep, if_neg hk]
      exact h k2

theorem foldl_findStats_perm {A : Type}
    (step : List (List Nat × StationData) → List Nat × A → List (List Nat × StationData))
    (upd : Option StationData → A → StationData)
    (hstep : ∀ fm p k, finalFind (step fm p) k =
      if k = p.1 then some (upd (finalFind fm p.1) p.2) else finalFind fm k)
    (hcong : ∀ o1 o2 a, o1.map statsOf = o2.map statsOf →
      statsOf (upd o1 a) = statsOf (upd o2 a))
    (hswap : ∀ o a1 a2, statsOf (upd (some (upd o a1)) a2) = statsOf (upd (some (upd o a2)) a1)) :
    ∀ {l1 l2 : List (List Nat × A)}, l1.Perm l2 → ∀ fm k,
      (finalFind (l1.foldl step fm) k).map statsOf =
        (finalFind (l2.foldl step fm) k).map statsOf := by
  intro l1 l2 hperm
  induction hperm with
  | nil => intro fm k; rfl
  | cons x hp ih =>
    intro fm k
    simp only [List.foldl_cons]
    exact ih (step fm x) k
  | swap x y l =>
    intro fm k
    simp only [List.foldl_cons]
    apply foldl_findStats_congr step upd hstep hcong
    intro k2
    have hxA : ∀ z, finalFind (step fm x) z =
        if z = x.1 then some (upd (finalFind fm x.1) x.2) else finalFind fm z :=
      fun z => hstep fm x z
    have hyA : ∀ z, finalFind (step fm y) z =
        if z = y.1 then some (upd (finalFind fm y.1) y.2) else finalFind fm z :=
      fun z => hstep fm y z
    rw [hstep (step fm y) x k2, hstep (step fm x) y k2]
    by_cases hk1 : k2 = x.1 <;> by_cases hk2 : k2 = y.1
    · rw [if_pos hk1, if_pos hk2, hyA x.1, hxA y.1,
        if_pos ((Eq.symm hk1).trans hk2), if_pos ((Eq.symm hk2).trans hk1)]
      simp only [Option.map_some']
      apply congrArg
      have heq : finalFind fm y.1 = finalFind fm x.1 := by
        rw [(Eq.symm hk1).trans hk2]
      rw [heq]
      exact hswap _ _ _
    · rw [if_pos hk1, if_neg hk2, hyA x.1, hxA k2,
        if_neg (fun hh : x.1 = y.1 => hk2 (hk1.trans hh)), if_pos hk1]
    · rw [if_neg hk1, if_pos hk2, hyA k2, hxA y.1,
        if_pos hk2, if_neg (fun hh : y.1 = x.1 => hk1 (hk2.trans hh))]
    · rw [if_neg hk1, if_neg hk2, hyA k2, hxA k2, if_neg hk2, if_neg hk1]
  | trans hp1 hp2 ih1 ih2 =>
    intro fm k
    exact (ih1 fm k).trans (ih2 fm k)

theorem mergeUpd_congr (o1 o2 : Option StationData) (a : StationData)
    (h : o1.map statsOf = o2.map statsOf) :
    statsOf (mergeUpd o1 a) = statsOf (mergeUpd o2 a) := by
  cases o1 <;> cases o2
  · rfl
  · exact absurd h (by simp)
  · exact absurd h (by simp)
  · exact statsOf_combine_congr _ _ a a (by simpa using h) rfl

theorem mergeUpd_swap (o : Option StationData) (a1 a2 : StationData) :
    statsOf (mergeUpd (some (mergeUpd o a1)) a2) = statsOf (mergeUpd (some (mergeUpd o a2)) a1) := by
  cases o
  · exact combine_comm_stats a1 a2
  · rename_i v
    show statsOf (combineStats (combineStats v a1) a2) = statsOf (combineStats (combineStats v a2) a1)
    rw [combine_assoc_full, combine_assoc_full]
    exact statsOf_combine_congr v v _ _ rfl (combine_comm_stats a1 a2)

theorem obsUpd_congr (o1 o2 : Option StationData) (t : Int)
    (h : o1.map statsOf = o2.map statsOf) :
    statsOf (obsUpd o1 t) = statsOf (obsUpd o2 t) := by
  cases o1 <;> cases o2
  · rfl
  · exact absurd h (by simp)
  · exact absurd h (by simp)
  · exact statsOf_record_congr _ _ t (by simpa using h)

/-- Claim C7. The merger's per-station combine operator is commutative
(on the four aggregate components; the retained name span is the
surviving entry's) and associative; draining published slots in any
order yields a final map with the same stations and the same aggregates,
and permuting the input observations likewise leaves the per-station
aggregates unchanged. -/
theorem claim_C7_combine_comm_assoc_perm :
    (∀ a b, statsOf (combineStats a b) = statsOf (combineStats b a)) ∧
    (∀ a b c, combineStats (combineStats a b) c = combineStats a (combineStats b c)) ∧
    (∀ l1 l2 : List (List Nat × StationData), l1.Perm l2 →
      ∀ n, (finalFind (mergeSlots [] l1) n).map statsOf =
        (finalFind (mergeSlots [] l2) n).map statsOf) ∧
    (∀ l1 l2 : List (List Nat × Int), l1.Perm l2 →
      ∀ n, (finalFind (obsAggregate l1) n).map statsOf =
        (finalFind (obsAggregate l2) n).map statsOf) := by
  refine ⟨combine_comm_stats, combine_assoc_full, ?_, ?_⟩
  · intro l1 l2 hp n
    exact foldl_findStats_perm (fun fm p => insertMerge fm p.1 p.2)
      mergeUpd
      (fun fm p k => finalFind_insertMerge fm p.1 p.2 k)
      (fun o1 o2 a h => mergeUpd_congr o1 o2 a h)
      (fun o a1 a2 => mergeUpd_swap o a1 a2)
      hp [] n
  · intro l1 l2 hp n
    exact foldl_findStats_perm (fun fm p => insertObs fm p.1 p.2)
      obsUpd
      (fun fm p k => finalFind_insertObs fm p.1 p.2 k)
      (fun o1 o2 t h => obsUpd_congr o1 o2 t h)
      (fun o t1 t2 => by
        cases o
        · exact congrArg statsOf (record_record_comm (freshStation 0 0) t1 t2)
        · rename_i v
          exact congrArg statsOf (record_record_comm v t1 t2))
      hp [] n

/-- Witness for C7 at a concrete permutation. -/
theorem claim_C7_witness :
    ([([97], (5 : Int)), ([98], 7)].Perm [([98], 7), ([97], 5)]) ∧
    (finalFind (obsAggregate [([97], (5 : Int)), ([98], 7)]) [97]).map statsOf =
      (finalFind (obsAggregate [([98], (7 : Int)), ([97], 5)]) [97]).map statsOf :=
  ⟨List.Perm.swap ([98], 7) ([97], 5) [],
   claim_C7_combine_comm_assoc_perm.2.2.2 _ _ (List.Perm.swap ([98], 7) ([97], 5) []) [97]⟩

/-- Claim C6. A freshly inserted record has `min_temp = +999`,
`max_temp = -999`, `sum = 0`, `count = 0`; applying the uniform `record`
update with a temperature in `[-999, 999]` — including the very first
observation — yields a record satisfying `min_temp ≤ max_temp`,
`count ≥ 1`, `|sum| ≤ count · 999`; `record` and the merger's combine
step preserve these invariants. -/
theorem claim_C6_record_invariants :
    (∀ a l, (freshStation a l).MinTemp = 999 ∧ (freshStation a l).MaxTemp = -999 ∧
      (freshStation a l).Sum = 0 ∧ (freshStation a l).Count = 0) ∧
    (∀ a l t, -999 ≤ t → t ≤ 999 → StationInv (record (freshStation a l) t)) ∧
    (∀ s t, StationInv s → -999 ≤ t → t ≤ 999 → StationInv (record s t)) ∧
    (∀ s1 s2, StationInv s1 → StationInv s2 → StationInv (combineStats s1 s2)) := by
  refine ⟨fun a l => ⟨rfl, rfl, rfl, rfl⟩, ?_, ?_, ?_⟩
  · intro a l t h1 h2
    simp only [StationInv, record, freshStation, MAX_TEMP, MIN_TEMP, abs_le]
    split_ifs <;> constructor <;> omega
  · intro s t hs h1 h2
    obtain ⟨i1, i2, i3⟩ := hs
    rw [abs_le] at i3
    simp only [StationInv, record, abs_le]
    split_ifs <;> refine ⟨?_, ?_, ?_⟩ <;> omega
  · intro s1 s2 hs1 hs2
    obtain ⟨i1, i2, i3⟩ := hs1
    obtain ⟨j1, j2, j3⟩ := hs2
    rw [abs_le] at i3 j3
    simp only [StationInv, combineStats, abs_le]
    split_ifs <;> refine ⟨?_, ?_, ?_⟩ <;> omega

/-- Witness for C6 at a concrete input. -/
theorem claim_C6_witness :
    ((-999 : Int) ≤ 5 ∧ (5 : Int) ≤ 999) ∧ StationInv (record (freshStation 3 1) 5) :=
  ⟨⟨by decide, by decide⟩, claim_C6_record_invariants.2.1 3 1 5 (by decide) (by decide)⟩

/-- Claim C1. The claim states that the dispatcher offsets together with
the worker boundary rule make every record of a well-formed input be
parsed and recorded by exactly one worker, for every worker count
`W ≥ 1`, so that the counts in the merged map sum to the record total.
The code falsifies this: on the 1087-byte well-formed input `region1087`
with `W = 8`, the input holds 12 records but the dispatcher condition
`i + parseChunkSize < size + 128` drops offset 1080, the chunk holding
the final record, and the merged counts sum to 11. -/
theorem claim_C1_dispatcher_drops_final_record :
    countNewlines region1087 1087 = 12 ∧
    chunkOffsets 1087 8 = [0, 135, 270, 405, 540, 675, 810, 945] ∧
    (pipelineResult region1087 200 1087 8).map sumCounts = some 11 := by
  refine ⟨by decide, by decide, by decide⟩

/-- Claim C2. The claim states that a single-worker run and a many-worker
run on the same well-formed input produce byte-identical output. On
`region1087` the single-worker final map carries station `a` with
aggregates `(count, min, max) = (1, 99, 99)` in scaled tenths, while the
eight-worker run has no station `a` at all, because the dispatcher drops
the chunk holding the record `a;9.9`; the single-worker output contains
`a=9.9/9.9/9.9` and the eight-worker output does not, so the outputs are
not byte-identical. -/
theorem claim_C2_worker_counts_disagree :
    ((pipelineResult region1087 200 1087 1).bind (fun fm => finalFind fm [97])).map
        (fun s => (s.Count, s.MinTemp, s.MaxTemp)) = some (1, 99, 99) ∧
    (pipelineResult region1087 200 1087 8).bind (fun fm => finalFind fm [97]) = none := by
  refine ⟨by decide, by decide⟩


theorem getD_set_self {α : Type} (l : List α) (i : Nat) (x d : α) (h : i < l.length) :
    (l.set i x).getD i d = x := by
  simp [List.getD_eq_getElem?_getD, List.getElem?_set_self h]

theorem getD_set_ne {α : Type} (l : List α) (i j : Nat) (x d : α) (h : i ≠ j) :
    (l.set i x).getD j d = l.getD j d := by
  simp [List.getD_eq_getElem?_getD, List.getElem?_set_ne h]

theorem bucketIndex_lt (h n : Nat) (hn : n = nBuckets) : h &&& (nBuckets - 1) < n := by
  subst hn
  exact Nat.lt_of_le_of_lt Nat.and_le_right (by decide)

theorem find?_none_of_absent (bs : List (List entry)) (h : Nat)
    (hnone : ∀ b ∈ bs, ∀ e ∈ b, e.key ≠ h) (i : Nat) :
    ((bs.getD i []).find? (fun e => e.key == h)) = none := by
  rw [List.find?_eq_none]
  intro e he
  by_cases hi : i < bs.length
  · rw [List.getD_eq_getElem _ _ hi] at he
    simpa using hnone _ (List.getElem_mem hi) e he
  · rw [List.getD_eq_default _ _ (Nat.le_of_not_lt hi)] at he
    exact absurd he (List.not_mem_nil e)

theorem GetUsingHash_absent {V : Type} (m : Map V) (h : Nat)
    (hnone : ∀ b ∈ m.buckets, ∀ e ∈ b, e.key ≠ h) : GetUsingHash m h = none := by
  simp only [GetUsingHash]
  rw [find?_none_of_absent m.buckets h hnone]
  rfl

theorem GetUsingHash_SetUsingHash_self {V : Type} (m : Map V) (h : Nat) (v : V)
    (hlen : m.buckets.length = nBuckets)
    (hnone : ∀ b ∈ m.buckets, ∀ e ∈ b, e.key ≠ h) :
    GetUsingHash (SetUsingHash m h v) h = some v := by
  have hi : h &&& (nBuckets - 1) < m.buckets.length := bucketIndex_lt h _ hlen
  simp only [GetUsingHash, SetUsingHash]
  rw [getD_set_self _ _ _ _ hi, List.find?_append, find?_none_of_absent m.buckets h hnone]
  simp only [List.find?, beq_self_eq_true, Option.or]
  exact List.get?_concat_length m.cache v

/-- Claim C8. On a table state without key `h`, `GetUsingHash h` misses;
after `SetUsingHash h v` on such a state it returns `v`; no operation
rehashes: the bucket count is pinned at `nBuckets = 2^12`, every insert
only appends one entry to one bucket (existing `(hash, mid)` entries are
never moved or modified) and appends the value to the cache. -/
theorem claim_C8_get_set_contract :
    (nBuckets = 2 ^ 12) ∧
    (∀ (V : Type), (NewHashMap V).buckets.length = nBuckets) ∧
    (∀ (V : Type) (m : Map V) (h : Nat),
      (∀ b ∈ m.buckets, ∀ e ∈ b, e.key ≠ h) → GetUsingHash m h = none) ∧
    (∀ (V : Type) (m : Map V) (h : Nat) (v : V),
      m.buckets.length = nBuckets →
      (∀ b ∈ m.buckets, ∀ e ∈ b, e.key ≠ h) →
      GetUsingHash (SetUsingHash m h v) h = some v) ∧
    (∀ (V : Type) (m : Map V) (h : Nat) (v : V),
      (SetUsingHash m h v).buckets.length = m.buckets.length) ∧
    (∀ (V : Type) (m : Map V) (h : Nat) (v : V) (j : Nat),
      m.buckets.length = nBuckets →
      (SetUsingHash m h v).buckets.getD j [] =
        m.buckets.getD j [] ++
          (if j = h &&& (nBuckets - 1) then [{ key := h, mid := m.cache.length }] else [])) ∧
    (∀ (V : Type) (m : Map V) (h : Nat) (v : V),
      m.buckets.length = nBuckets → (SetUsingHash m h v).cache = m.cache ++ [v]) := by
  refine ⟨by decide, fun V => by simp [NewHashMap], fun V => GetUsingHash_absent,
    fun V => GetUsingHash_SetUsingHash_self, fun V m h v => List.length_set .., ?_,
    fun V m h v _ => rfl⟩
  intro V m h v j hlen
  simp only [SetUsingHash]
  by_cases hj : j = h &&& (nBuckets - 1)
  · subst hj
    rw [if_pos rfl]
    exact getD_set_self _ _ _ _ (bucketIndex_lt h _ hlen)
  · rw [if_neg hj, getD_set_ne _ _ _ _ _ (fun hh => hj (Eq.symm hh)), List.append_nil]

/-- Witness for C8 at a concrete map and hash. -/
theorem claim_C8_witness :
    ((NewHashMap Nat).buckets.length = nBuckets ∧
      (∀ b ∈ (NewHashMap Nat).buckets, ∀ e ∈ b, e.key ≠ 7)) ∧
    GetUsingHash (SetUsingHash (NewHashMap Nat) 7 42) 7 = some 42 :=
  ⟨⟨by simp [NewHashMap],
    fun b hb e he => absurd (List.eq_of_mem_replicate hb ▸ he) (List.not_mem_nil e)⟩,
   claim_C8_get_set_contract.2.2.2.1 Nat (NewHashMap Nat) 7 42 (by simp [NewHashMap])
     (fun b hb e he => absurd (List.eq_of_mem_replicate hb ▸ he) (List.not_mem_nil e))⟩

theorem flatten_set_perm {α : Type} (l : List (List α)) (x : α) :
    ∀ (i : Nat), i < l.length →
      ((l.set i ((l.getD i []) ++ [x])).flatten).Perm (x :: l.flatten) := by
  induction l with
  | nil => intro i hi; exact absurd hi (Nat.not_lt_zero i)
  | cons b t ih =>
    intro i hi
    cases i with
    | zero =>
      simp only [List.set, List.getD, List.flatten_cons, List.getElem?_cons_zero, Option.getD_some]
      rw [List.append_assoc]
      exact List.perm_middle
    | succ i =>
      simp only [List.set, List.getD, List.flatten_cons, List.getElem?_cons_succ]
      have hperm := (ih i (Nat.lt_of_succ_lt_succ hi)).append_left b
      refine hperm.trans ?_
      exact List.perm_middle

theorem flatten_replicate_nil {α : Type} : ∀ (n : Nat), (List.replicate n ([] : List α)).flatten = [] := by
  intro n
  induction n with
  | zero => rfl
  | succ k ih => simp [List.replicate, List.flatten_cons, ih]

theorem bucket_mem_flatten {V : Type} (m : Map V) (i : Nat) (e : entry)
    (he : e ∈ m.buckets.getD i []) : e ∈ m.buckets.flatten := by
  by_cases hi : i < m.buckets.length
  · rw [List.getD_eq_getElem _ _ hi] at he
    exact List.mem_flatten.mpr ⟨_, List.getElem_mem hi, he⟩
  · rw [List.getD_eq_default _ _ (Nat.le_of_not_lt hi)] at he
    exact absurd he (List.not_mem_nil e)

theorem valid_SetUsingHash {V : Type} (m : Map V) (h : Nat) (v : V)
    (hlen : m.buckets.length = nBuckets)
    (hvalid : ∀ e ∈ m.buckets.flatten, e.mid < m.cache.length) :
    ∀ e ∈ (SetUsingHash m h v).buckets.flatten, e.mid < (SetUsingHash m h v).cache.length := by
  intro e he
  have hperm := flatten_set_perm m.buckets ({ key := h, mid := m.cache.length } : entry)
    (h &&& (nBuckets - 1)) (bucketIndex_lt h _ hlen)
  have he2 : e ∈ ({ key := h, mid := m.cache.length } : entry) :: m.buckets.flatten :=
    hperm.mem_iff.mp he
  have hclen : (SetUsingHash m h v).cache.length = m.cache.length + 1 := by
    simp [SetUsingHash]
  rw [hclen]
  rcases List.mem_cons.mp he2 with h1 | h1
  · rw [h1]
    exact Nat.lt_succ_self _
  · exact Nat.lt_succ_of_lt (hvalid e h1)

theorem GetUsingHash_SetUsingHash {V : Type} (m : Map V) (h h2 : Nat) (v : V)
    (hlen : m.buckets.length = nBuckets)
    (hvalid : ∀ e ∈ m.buckets.flatten, e.mid < m.cache.length) :
    GetUsingHash (SetUsingHash m h v) h2 =
      match GetUsingHash m h2 with
      | some w => some w
      | none => if h2 = h then some v else none := by
  have hcache : (SetUsingHash m h v).cache = m.cache ++ [v] := rfl
  by_cases hsame : h2 &&& (nBuckets - 1) = h &&& (nBuckets - 1)
  · have hset : (SetUsingHash m h v).buckets.getD (h2 &&& (nBuckets - 1)) [] =
        m.buckets.getD (h2 &&& (nBuckets - 1)) [] ++ [{ key := h, mid := m.cache.length }] := by
      simp only [SetUsingHash]
      rw [hsame, getD_set_self _ _ _ _ (bucketIndex_lt h _ hlen)]
    cases hfind : (m.buckets.getD (h2 &&& (nBuckets - 1)) []).find? (fun e => e.key == h2) with
    | some e =>
      have hmid : e.mid < m.cache.length :=
        hvalid e (bucket_mem_flatten m _ e (List.mem_of_find?_eq_some hfind))
      obtain ⟨w, hw⟩ : ∃ w, m.cache.get? e.mid = some w :=
        Option.isSome_iff_exists.mp (by rw [List.get?_eq_get hmid]; rfl)
      have hG : GetUsingHash m h2 = some w := by
        simp only [GetUsingHash, hfind]
        exact hw
      have hL : GetUsingHash (SetUsingHash m h v) h2 = some w := by
        simp only [GetUsingHash, hcache, hset, List.find?_append, hfind]
        show (m.cache ++ [v]).get? e.mid = some w
        rw [List.get?_append hmid]
        exact hw
      rw [hL, hG]
    | none =>
      have hG : GetUsingHash m h2 = none := by
        simp only [GetUsingHash, hfind]
        rfl
      by_cases hh : h2 = h
      · have hL : GetUsingHash (SetUsingHash m h v) h2 = some v := by
          simp only [GetUsingHash, hcache, hset, List.find?_append, hfind]
          rw [List.find?_cons_of_pos _ (by simp [hh])]
          show (m.cache ++ [v]).get? m.cache.length = some v
          exact List.get?_concat_length m.cache v
        rw [hL, hG]
        exact (if_pos hh).symm
      · have hL : GetUsingHash (SetUsingHash m h v) h2 = none := by
          simp only [GetUsingHash, hcache, hset, List.find?_append, hfind]
          rw [List.find?_cons_of_neg _ (by simp only [beq_iff_eq]; exact fun hhh => hh (Eq.symm hhh))]
          rfl
        rw [hL, hG]
        exact (if_neg hh).symm
  · have hset : (SetUsingHash m h v).buckets.getD (h2 &&& (nBuckets - 1)) [] =
        m.buckets.getD (h2 &&& (nBuckets - 1)) [] := by
      simp only [SetUsingHash]
      exact getD_set_ne _ _ _ _ _ (fun hh => hsame (Eq.symm hh))
    have hne : ¬ h2 = h := fun hh => hsame (by rw [hh])
    cases hfind : (m.buckets.getD (h2 &&& (nBuckets - 1)) []).find? (fun e => e.key == h2) with
    | some e =>
      have hmid : e.mid < m.cache.length :=
        hvalid e (bucket_mem_flatten m _ e (List.mem_of_find?_eq_some hfind))
      obtain ⟨w, hw⟩ : ∃ w, m.cache.get? e.mid = some w :=
        Option.isSome_iff_exists.mp (by rw [List.get?_eq_get hmid]; rfl)
      have hG : GetUsingHash m h2 = some w := by
        simp only [GetUsingHash, hfind]
        exact hw
      have hL : GetUsingHash (SetUsingHash m h v) h2 = some w := by
        simp only [GetUsingHash, hcache, hset, hfind]
        show (m.cache ++ [v]).get? e.mid = some w
        rw [List.get?_append hmid]
        exact hw
      rw [hL, hG]
    | none =>
      have hG : GetUsingHash m h2 = none := by
        simp only [GetUsingHash, hfind]
        rfl
      have hL : GetUsingHash (SetUsingHash m h v) h2 = none := by
        simp only [GetUsingHash, hcache, hset, hfind]
        rfl
      rw [hL, hG]
      exact (if_neg hne).symm

theorem cache_foldl {V : Type} (ops : List (Nat × V)) : ∀ (m : Map V),
    (ops.foldl (fun m p => SetUsingHash m p.1 p.2) m).cache =
      m.cache ++ ops.map (fun p => p.2) := by
  induction ops with
  | nil => intro m; simp
  | cons p t ih =>
    intro m
    rw [List.foldl_cons, ih]
    show (SetUsingHash m p.1 p.2).cache ++ _ = _
    rw [show (SetUsingHash m p.1 p.2).cache = m.cache ++ [p.2] from rfl]
    simp

theorem length_foldl {V : Type} (ops : List (Nat × V)) : ∀ (m : Map V),
    (ops.foldl (fun m p => SetUsingHash m p.1 p.2) m).buckets.length = m.buckets.length := by
  induction ops with
  | nil => intro m; rfl
  | cons p t ih =>
    intro m
    rw [List.foldl_cons, ih]
    exact List.length_set ..

theorem valid_foldl {V : Type} (ops : List (Nat × V)) : ∀ (m : Map V),
    m.buckets.length = nBuckets →
    (∀ e ∈ m.buckets.flatten, e.mid < m.cache.length) →
    ∀ e ∈ (ops.foldl (fun m p => SetUsingHash m p.1 p.2) m).buckets.flatten,
      e.mid < (ops.foldl (fun m p => SetUsingHash m p.1 p.2) m).cache.length := by
  induction ops with
  | nil => intro m _ hv; exact hv
  | cons p t ih =>
    intro m hlen hv
    rw [List.foldl_cons]
    exact ih (SetUsingHash m p.1 p.2)
      ((List.length_set ..).trans hlen)
      (valid_SetUsingHash m p.1 p.2 hlen hv)

theorem GetUsingHash_foldl {V : Type} (ops : List (Nat × V)) : ∀ (m : Map V),
    m.buckets.length = nBuckets →
    (∀ e ∈ m.buckets.flatten, e.mid < m.cache.length) →
    ∀ h, GetUsingHash (ops.foldl (fun m p => SetUsingHash m p.1 p.2) m) h =
      (match GetUsingHash m h with
       | some w => some w
       | none => earliestValue ops h) := by
  induction ops with
  | nil =>
    intro m _ _ h
    rw [List.foldl_nil]
    cases hG : GetUsingHash m h <;> rfl
  | cons p t ih =>
    intro m hlen hvalid h
    rw [List.foldl_cons,
      ih (SetUsingHash m p.1 p.2) ((List.length_set ..).trans hlen)
        (valid_SetUsingHash m p.1 p.2 hlen hvalid) h,
      GetUsingHash_SetUsingHash m p.1 h p.2 hlen hvalid]
    cases GetUsingHash m h with
    | some w => rfl
    | none =>
      by_cases hh : h = p.1
      · rw [if_pos hh]
        show some p.2 = ((p :: t).find? (fun q => q.1 == h)).map (fun q => q.2)
        rw [List.find?_cons_of_pos _ (by simp [hh])]
        rfl
      · rw [if_neg hh]
        show earliestValue t h = ((p :: t).find? (fun q => q.1 == h)).map (fun q => q.2)
        rw [List.find?_cons_of_neg _ (by simp only [beq_iff_eq]; exact fun hhh => hh (Eq.symm hhh))]
        rfl

theorem mids_foldl {V : Type} (ops : List (Nat × V)) : ∀ (m : Map V),
    m.buckets.length = nBuckets →
    ((ops.foldl (fun m p => SetUsingHash m p.1 p.2) m).buckets.flatten.map entry.mid).Perm
      (m.buckets.flatten.map entry.mid ++ List.range' m.cache.length ops.length 1) := by
  induction ops with
  | nil => intro m _; simp
  | cons p t ih =>
    intro m hlen
    rw [List.foldl_cons, List.length_cons]
    have h1 := ih (SetUsingHash m p.1 p.2) ((List.length_set ..).trans hlen)
    have hc : (SetUsingHash m p.1 p.2).cache.length = m.cache.length + 1 := by
      show (m.cache ++ [p.2]).length = m.cache.length + 1
      simp
    rw [hc] at h1
    have h2 : ((SetUsingHash m p.1 p.2).buckets.flatten.map entry.mid).Perm
        (m.cache.length :: m.buckets.flatten.map entry.mid) :=
      (flatten_set_perm m.buckets ({ key := p.1, mid := m.cache.length } : entry)
        (p.1 &&& (nBuckets - 1)) (bucketIndex_lt p.1 _ hlen)).map entry.mid
    refine h1.trans ?_
    refine (h2.append_right (List.range' (m.cache.length + 1) t.length 1)).trans ?_
    rw [List.range'_succ m.cache.length t.length 1]
    exact List.perm_middle.symm

theorem GetUsingHash_NewHashMap {V : Type} (h : Nat) : GetUsingHash (NewHashMap V) h = none :=
  GetUsingHash_absent _ h
    (fun _ hbk e he => absurd (List.eq_of_mem_replicate hbk ▸ he) (List.not_mem_nil e))

theorem flatten_NewHashMap {V : Type} : (NewHashMap V).buckets.flatten = [] :=
  flatten_replicate_nil nBuckets

/-- Claim C10. Any sequence of inserts from a fresh map keeps every
bucket entry's slot index a valid index into the dense `cache`, the slot
indices across all buckets enumerate `0..len(cache)-1` exactly (one
append-only cache slot per insert), `GetUsingHash h` returns the
earliest-inserted value with stored key `h`, and the cache visited by
the merger is exactly the inserted values in insertion order;
`SetBytes` is `SetUsingHash` at the key's `HashBytes64` hash. -/
theorem claim_C10_table_invariants :
    (∀ (V : Type) (ops : List (Nat × V)), ∀ e ∈ (buildMap ops).buckets.flatten,
      e.mid < (buildMap ops).cache.length) ∧
    (∀ (V : Type) (ops : List (Nat × V)),
      ((buildMap ops).buckets.flatten.map entry.mid).Perm
        (List.range (buildMap ops).cache.length)) ∧
    (∀ (V : Type) (ops : List (Nat × V)) (h : Nat),
      GetUsingHash (buildMap ops) h = earliestValue ops h) ∧
    (∀ (V : Type) (ops : List (Nat × V)), (buildMap ops).cache = ops.map (fun p => p.2)) ∧
    (∀ (V : Type) (m : Map V) (k : List Nat) (v : V),
      SetBytes m k v = SetUsingHash m (HashBytes64 k) v) := by
  have hlenN : ∀ (V : Type), (NewHashMap V).buckets.length = nBuckets := fun V => by
    simp [NewHashMap]
  have hvalidN : ∀ (V : Type), ∀ e ∈ (NewHashMap V).buckets.flatten,
      e.mid < (NewHashMap V).cache.length := fun V e he => by
    rw [flatten_NewHashMap] at he
    exact absurd he (List.not_mem_nil e)
  have hcache : ∀ (V : Type) (ops : List (Nat × V)),
      (buildMap ops).cache = ops.map (fun p => p.2) := fun V ops => by
    rw [buildMap, cache_foldl]
    rfl
  refine ⟨?_, ?_, ?_, hcache, fun V m k v => rfl⟩
  · intro V ops e he
    exact valid_foldl ops (NewHashMap V) (hlenN V) (hvalidN V) e he
  · intro V ops
    have h1 := mids_foldl ops (NewHashMap V) (hlenN V)
    rw [flatten_NewHashMap] at h1
    simp only [List.map_nil, List.nil_append] at h1
    have h2 : (buildMap ops).cache.length = ops.length := by
      rw [hcache V ops, List.length_map]
    rw [h2, List.range_eq_range']
    have h3 : (NewHashMap V).cache.length = 0 := rfl
    rw [h3] at h1
    exact h1
  · intro V ops h
    have h1 := GetUsingHash_foldl ops (NewHashMap V) (hlenN V) (hvalidN V) h
    rw [GetUsingHash_NewHashMap h] at h1
    exact h1

/-- Witness for C10 at a concrete insert sequence. -/
theorem claim_C10_witness :
    (({ key := 3, mid := 0 } : entry) ∈ (buildMap [((3 : Nat), (5 : Nat))]).buckets.flatten) ∧
    ({ key := 3, mid := 0 } : entry).mid < (buildMap [((3 : Nat), (5 : Nat))]).cache.length :=
  ⟨by decide, claim_C10_table_invariants.1 Nat [(3, 5)] { key := 3, mid := 0 } (by decide)⟩


theorem addLow_testBit (a x i : Nat) (ha : a < 256) :
    (a + 256 * x).testBit i = if i < 8 then a.testBit i else x.testBit (i - 8) := by
  have h : a + 256 * x = 2 ^ 8 * x + a := by ring
  rw [h]
  exact Nat.testBit_mul_pow_two_add x ha i

theorem land_byte_decomp (a b x y : Nat) (ha : a < 256) (hb : b < 256) :
    (a + 256 * x) &&& (b + 256 * y) = (a &&& b) + 256 * (x &&& y) := by
  have hab : (a &&& b) < 256 := Nat.lt_of_le_of_lt Nat.and_le_left ha
  apply Nat.eq_of_testBit_eq
  intro i
  rw [Nat.testBit_and, addLow_testBit a x i ha, addLow_testBit b y i hb,
    addLow_testBit (a &&& b) (x &&& y) i hab]
  by_cases hi : i < 8
  · simp [hi, Nat.testBit_and]
  · simp [hi, Nat.testBit_and]

theorem xor_byte_decomp (a b x y : Nat) (ha : a < 256) (hb : b < 256) :
    (a + 256 * x) ^^^ (b + 256 * y) = (a ^^^ b) + 256 * (x ^^^ y) := by
  have hab : (a ^^^ b) < 256 := by
    have : (a ^^^ b) < 2 ^ 8 := Nat.xor_lt_two_pow ha hb
    exact this
  apply Nat.eq_of_testBit_eq
  intro i
  rw [Nat.testBit_xor, addLow_testBit a x i ha, addLow_testBit b y i hb,
    addLow_testBit (a ^^^ b) (x ^^^ y) i hab]
  by_cases hi : i < 8
  · simp [hi, Nat.testBit_xor]
  · simp [hi, Nat.testBit_xor]

theorem wordOfBytes_lt (bs : List Nat) (hb : ∀ b ∈ bs, b < 256) :
    wordOfBytes bs < 256 ^ bs.length := by
  induction bs with
  | nil => simp [wordOfBytes]
  | cons b t ih =>
    have h1 : b < 256 := hb b (List.mem_cons_self b t)
    have h2 : wordOfBytes t < 256 ^ t.length := ih (fun x hx => hb x (List.mem_cons_of_mem b hx))
    simp only [wordOfBytes, List.length_cons, pow_succ]
    calc b + 256 * wordOfBytes t < 256 + 256 * wordOfBytes t := by omega
      _ ≤ 256 + 256 * (256 ^ t.length - 1) := by
          have : wordOfBytes t ≤ 256 ^ t.length - 1 := by omega
          exact Nat.add_le_add_left (Nat.mul_le_mul_left 256 this) 256
      _ ≤ 256 ^ t.length * 256 := by
          have hpos : 1 ≤ 256 ^ t.length := Nat.one_le_pow t.length 256 (by norm_num)
          omega

theorem wordOfBytes_land (as : List Nat) : ∀ (bs : List Nat), as.length = bs.length →
    (∀ a ∈ as, a < 256) → (∀ b ∈ bs, b < 256) →
    wordOfBytes (List.zipWith (· &&& ·) as bs) = wordOfBytes as &&& wordOfBytes bs := by
  induction as with
  | nil =>
    intro bs hlen _ _
    cases bs with
    | nil => simp [wordOfBytes]
    | cons b u => exact absurd hlen (by simp)
  | cons a t ih =>
    intro bs hlen ha hb
    cases bs with
    | nil => exact absurd hlen (by simp)
    | cons b u =>
      simp only [List.zipWith_cons_cons, wordOfBytes]
      rw [ih u (by simpa using hlen) (fun x hx => ha x (List.mem_cons_of_mem a hx))
        (fun x hx => hb x (List.mem_cons_of_mem b hx))]
      exact (land_byte_decomp a b (wordOfBytes t) (wordOfBytes u)
        (ha a (List.mem_cons_self a t)) (hb b (List.mem_cons_self b u))).symm

theorem wordOfBytes_xor (as : List Nat) : ∀ (bs : List Nat), as.length = bs.length →
    (∀ a ∈ as, a < 256) → (∀ b ∈ bs, b < 256) →
    wordOfBytes (List.zipWith (· ^^^ ·) as bs) = wordOfBytes as ^^^ wordOfBytes bs := by
  induction as with
  | nil =>
    intro bs hlen _ _
    cases bs with
    | nil => simp [wordOfBytes]
    | cons b u => exact absurd hlen (by simp)
  | cons a t ih =>
    intro bs hlen ha hb
    cases bs with
    | nil => exact absurd hlen (by simp)
    | cons b u =>
      simp only [List.zipWith_cons_cons, wordOfBytes]
      rw [ih u (by simpa using hlen) (fun x hx => ha x (List.mem_cons_of_mem a hx))
        (fun x hx => hb x (List.mem_cons_of_mem b hx))]
      exact (xor_byte_decomp a b (wordOfBytes t) (wordOfBytes u)
        (ha a (List.mem_cons_self a t)) (hb b (List.mem_cons_self b u))).symm

theorem zipWith_replicate_right {α β : Type} (f : α → Nat → β) (c : Nat) :
    ∀ (l : List α) (n : Nat), l.length = n →
    List.zipWith f l (List.replicate n c) = l.map (fun a => f a c) := by
  intro l
  induction l with
  | nil => intro n _; simp
  | cons a t ih =>
    intro n hlen
    cases n with
    | zero => exact absurd hlen (by simp)
    | succ m => simp [List.replicate, ih m (by simpa using hlen)]

theorem head_mod (c Y n : Nat) (hc : c < 256) :
    (c + 256 * Y) % 256 ^ (n + 1) = c + 256 * (Y % 256 ^ n) := by
  have hY := Nat.div_add_mod Y (256 ^ n)
  have hpos : 0 < 256 ^ n := Nat.pos_pow_of_pos n (by norm_num)
  have hr : Y % 256 ^ n < 256 ^ n := Nat.mod_lt Y hpos
  calc (c + 256 * Y) % 256 ^ (n + 1)
      = ((c + 256 * (Y % 256 ^ n)) + 256 ^ (n + 1) * (Y / 256 ^ n)) % 256 ^ (n + 1) := by
        congr 1
        rw [pow_succ]
        have : 256 * Y = 256 * (256 ^ n * (Y / 256 ^ n) + Y % 256 ^ n) := by rw [hY]
        rw [this]
        ring
    _ = (c + 256 * (Y % 256 ^ n)) % 256 ^ (n + 1) := by rw [Nat.add_mul_mod_self_left]
    _ = c + 256 * (Y % 256 ^ n) := by
        apply Nat.mod_eq_of_lt
        rw [pow_succ]
        set P := 256 ^ n with hP
        omega

theorem onesM_lt (n : Nat) : onesM n + 1 ≤ 256 ^ n := by
  induction n with
  | zero => simp [onesM]
  | succ m ih =>
    simp only [onesM, pow_succ]
    set P := 256 ^ m with hP
    omega

theorem subOnes_length (bs : List Nat) : ∀ brw, (subOnes bs brw).length = bs.length := by
  induction bs with
  | nil => intro brw; rfl
  | cons b t ih => intro brw; simp [subOnes, ih]

theorem subOnes_lt (bs : List Nat) : ∀ brw, ∀ s ∈ subOnes bs brw, s < 256 := by
  induction bs with
  | nil => intro brw s hs; exact absurd hs (List.not_mem_nil s)
  | cons b t ih =>
    intro brw s hs
    rcases List.mem_cons.mp hs with h | h
    · rw [h]; exact Nat.mod_lt _ (by norm_num)
    · exact ih _ s h

theorem subOnes_spec (bs : List Nat) : ∀ (brw : Nat), brw ≤ 1 → (∀ b ∈ bs, b < 256) →
    wordOfBytes (subOnes bs brw) =
      (wordOfBytes bs + 256 ^ bs.length - (onesM bs.length + brw)) % 256 ^ bs.length := by
  induction bs with
  | nil =>
    intro brw hbrw _
    simp only [wordOfBytes, subOnes, List.length_nil, pow_zero, onesM]
    omega
  | cons b t ih =>
    intro brw hbrw hb
    have hblt : b < 256 := hb b (List.mem_cons_self b t)
    have htlt : ∀ x ∈ t, x < 256 := fun x hx => hb x (List.mem_cons_of_mem b hx)
    have hX : wordOfBytes t < 256 ^ t.length := wordOfBytes_lt t htlt
    have hones := onesM_lt t.length
    simp only [subOnes, wordOfBytes, List.length_cons, onesM]
    by_cases hbor : b < 1 + brw
    · rw [if_pos hbor, ih 1 (le_refl 1) htlt]
      have hhead : (b + 256 - 1 - brw) % 256 = b + 255 - brw := by omega
      rw [hhead]
      have harg : b + 256 * wordOfBytes t + 256 ^ (t.length + 1) - (1 + 256 * onesM t.length + brw) =
          (b + 255 - brw) + 256 * (wordOfBytes t + 256 ^ t.length - (onesM t.length + 1)) := by
        rw [pow_succ]
        set P := 256 ^ t.length with hP
        omega
      rw [harg, head_mod _ _ _ (by omega)]
    · rw [if_neg hbor, ih 0 (by omega) htlt]
      have hhead : (b + 256 - 1 - brw) % 256 = b - 1 - brw := by omega
      rw [hhead]
      have harg : b + 256 * wordOfBytes t + 256 ^ (t.length + 1) - (1 + 256 * onesM t.length + brw) =
          (b - 1 - brw) + 256 * (wordOfBytes t + 256 ^ t.length - (onesM t.length + 0)) := by
        rw [pow_succ]
        set P := 256 ^ t.length with hP
        omega
      rw [harg, head_mod _ _ _ (by omega)]

theorem zip_and_and_fuse (ss : List Nat) : ∀ (xs : List Nat), ss.length = xs.length →
    List.zipWith (· &&& ·)
      (List.zipWith (· &&& ·) ss (xs.map (fun x => x ^^^ 255)))
      (List.replicate xs.length 0x80) =
    List.zipWith maskByte ss xs := by
  induction ss with
  | nil =>
    intro xs hlen
    cases xs with
    | nil => rfl
    | cons x u => exact absurd hlen (by simp)
  | cons s t ih =>
    intro xs hlen
    cases xs with
    | nil => exact absurd hlen (by simp)
    | cons x u =>
      simp only [List.map_cons, List.zipWith_cons_cons, List.length_cons, List.replicate]
      rw [ih u (by simpa using hlen)]
      rfl

theorem zipWith_and_lt (as : List Nat) : ∀ (bs : List Nat), (∀ a ∈ as, a < 256) →
    ∀ y ∈ List.zipWith (· &&& ·) as bs, y < 256 := by
  induction as with
  | nil => intro bs _ y hy; exact absurd hy (by simp)
  | cons a t ih =>
    intro bs ha y hy
    cases bs with
    | nil => exact absurd hy (by simp)
    | cons b u =>
      rcases List.mem_cons.mp hy with h | h
      · rw [h]
        exact Nat.lt_of_le_of_lt Nat.and_le_left (ha a (List.mem_cons_self a t))
      · exact ih u (fun z hz => ha z (List.mem_cons_of_mem a hz)) y h


theorem word_xor_map (bs : List Nat) (c : Nat) (hc : c < 256) (hb : ∀ b ∈ bs, b < 256) :
    wordOfBytes bs ^^^ wordOfBytes (List.replicate bs.length c) =
      wordOfBytes (bs.map (fun b => b ^^^ c)) := by
  rw [← wordOfBytes_xor bs (List.replicate bs.length c) (by simp) hb
    (fun x hx => by rw [List.eq_of_mem_replicate hx]; exact hc)]
  congr 1
  exact zipWith_replicate_right (· ^^^ ·) c bs bs.length rfl

theorem map_xor_lt (xs : List Nat) (c : Nat) (hc : c < 256) (hx : ∀ x ∈ xs, x < 256) :
    ∀ y ∈ xs.map (fun x => x ^^^ c), y < 256 := by
  intro y hy
  obtain ⟨x, hxm, rfl⟩ := List.mem_map.mp hy
  have h1 : x < 2 ^ 8 := hx x hxm
  have h2 : c < 2 ^ 8 := hc
  exact Nat.xor_lt_two_pow h1 h2

theorem swar_sub_eq (xs : List Nat) (hxlt : ∀ x ∈ xs, x < 256) (hxlen : xs.length = 8) :
    (wordOfBytes xs + U64 - 0x0101010101010101) % U64 = wordOfBytes (subOnes xs 0) := by
  rw [subOnes_spec xs 0 (by omega) hxlt, hxlen]
  have hU : U64 = 256 ^ 8 := by decide
  have hM : (0x0101010101010101 : Nat) = onesM 8 := by decide
  rw [hU, hM]
  simp

theorem swar_not_eq (xs : List Nat) (hxlt : ∀ x ∈ xs, x < 256) (hxlen : xs.length = 8) :
    i64not (wordOfBytes xs) = wordOfBytes (xs.map (fun x => x ^^^ 255)) := by
  have hF : U64 - 1 = wordOfBytes (List.replicate 8 255) := by decide
  simp only [i64not]
  rw [hF, ← hxlen]
  exact word_xor_map xs 255 (by norm_num) hxlt

theorem swar_word_eq (xs : List Nat) (hxlt : ∀ x ∈ xs, x < 256) (hxlen : xs.length = 8) :
    ((wordOfBytes xs + U64 - 0x0101010101010101) % U64) &&& i64not (wordOfBytes xs) &&&
      0x8080808080808080 = wordOfBytes (swarMaskBytes xs) := by
  rw [swar_sub_eq xs hxlt hxlen, swar_not_eq xs hxlt hxlen]
  have hH : (0x8080808080808080 : Nat) = wordOfBytes (List.replicate 8 0x80) := by decide
  rw [hH]
  rw [← wordOfBytes_land (subOnes xs 0) (xs.map (fun x => x ^^^ 255))
    (by rw [subOnes_length, List.length_map]) (subOnes_lt xs 0)
    (map_xor_lt xs 255 (by norm_num) hxlt)]
  rw [← wordOfBytes_land _ (List.replicate 8 0x80)
    (by rw [List.length_zipWith, subOnes_length, List.length_map, hxlen]; simp)
    (zipWith_and_lt (subOnes xs 0) (xs.map (fun x => x ^^^ 255)) (subOnes_lt xs 0))
    (fun x hx => by rw [List.eq_of_mem_replicate hx]; norm_num)]
  rw [show (List.replicate 8 0x80 : List Nat) = List.replicate xs.length 0x80 from by rw [hxlen]]
  rw [zip_and_and_fuse (subOnes xs 0) xs (subOnes_length xs 0)]
  rfl

theorem findDelimiter_bytes (bs : List Nat) (hb : ∀ b ∈ bs, b < 256) (hlen : bs.length = 8) :
    findDelimiter (wordOfBytes bs) = wordOfBytes (swarMaskBytes (bs.map (fun b => b ^^^ 0x3B))) := by
  have hC : (0x3B3B3B3B3B3B3B3B : Nat) = wordOfBytes (List.replicate 8 0x3B) := by decide
  have hinput : wordOfBytes bs ^^^ 0x3B3B3B3B3B3B3B3B =
      wordOfBytes (bs.map (fun b => b ^^^ 0x3B)) := by
    rw [hC, ← hlen]
    exact word_xor_map bs 0x3B (by norm_num) hb
  show ((wordOfBytes bs ^^^ 0x3B3B3B3B3B3B3B3B) + U64 - 0x0101010101010101) % U64 &&&
      i64not (wordOfBytes bs ^^^ 0x3B3B3B3B3B3B3B3B) &&& 0x8080808080808080 = _
  rw [hinput]
  exact swar_word_eq (bs.map (fun b => b ^^^ 0x3B)) (map_xor_lt bs 0x3B (by norm_num) hb)
    (by rw [List.length_map, hlen])

theorem maskByte_nonzero_byte : ∀ b < 256, 1 ≤ b → maskByte ((b + 255) % 256) b = 0 := by
  decide

theorem maskByte_zero_byte : ∀ brw ≤ 1, maskByte ((0 + 256 - 1 - brw) % 256) 0 = 0x80 := by
  decide

theorem swar_nonzero_prefix (xs : List Nat) (h : ∀ x ∈ xs, 1 ≤ x ∧ x < 256) :
    List.zipWith maskByte (subOnes xs 0) xs = List.replicate xs.length 0 := by
  induction xs with
  | nil => rfl
  | cons x t ih =>
    obtain ⟨hx1, hx2⟩ := h x (List.mem_cons_self x t)
    have hbor : ¬ x < 1 + 0 := by omega
    simp only [subOnes, if_neg hbor, List.zipWith_cons_cons, List.length_cons, List.replicate]
    rw [show maskByte ((x + 256 - 1 - 0) % 256) x = 0 from by
        simpa using maskByte_nonzero_byte x hx2 hx1,
      ih (fun y hy => h y (List.mem_cons_of_mem x hy))]

theorem swar_split (lo : List Nat) (hi : List Nat) (hlo : ∀ x ∈ lo, 1 ≤ x ∧ x < 256) :
    List.zipWith maskByte (subOnes (lo ++ 0 :: hi) 0) (lo ++ 0 :: hi) =
      List.replicate lo.length 0 ++ 0x80 :: List.zipWith maskByte (subOnes hi 1) hi := by
  induction lo with
  | nil =>
    simp only [List.nil_append, List.replicate, subOnes, List.zipWith_cons_cons]
    rw [show maskByte ((0 + 256 - 1 - 0) % 256) 0 = 0x80 from by
        simpa using maskByte_zero_byte 0 (by omega)]
    norm_num
  | cons x t ih =>
    obtain ⟨hx1, hx2⟩ := hlo x (List.mem_cons_self x t)
    have hbor : ¬ x < 1 + 0 := by omega
    simp only [List.cons_append, subOnes, if_neg hbor, List.zipWith_cons_cons,
      List.length_cons, List.replicate]
    rw [show maskByte ((x + 256 - 1 - 0) % 256) x = 0 from by
        simpa using maskByte_nonzero_byte x hx2 hx1]
    rw [show (t.append (0 :: hi)) = t ++ 0 :: hi from rfl,
      ih (fun y hy => hlo y (List.mem_cons_of_mem x hy))]

theorem swar_getD_zero (xs : List Nat) : ∀ (brw : Nat), brw ≤ 1 → ∀ (k : Nat), k < xs.length →
    xs.getD k 1 = 0 → (List.zipWith maskByte (subOnes xs brw) xs).getD k 0 = 0x80 := by
  induction xs with
  | nil => intro brw _ k hk _; exact absurd hk (by simp)
  | cons x t ih =>
    intro brw hbrw k hk hx
    cases k with
    | zero =>
      rw [List.getD_cons_zero] at hx
      subst hx
      simp only [subOnes, List.zipWith_cons_cons, List.getD_cons_zero]
      exact maskByte_zero_byte brw hbrw
    | succ k =>
      rw [List.getD_cons_succ] at hx
      simp only [subOnes, List.zipWith_cons_cons, List.getD_cons_succ]
      have hbrw2 : (if x < 1 + brw then 1 else 0) ≤ 1 := by split <;> omega
      exact ih _ hbrw2 k (by simpa using hk) hx

theorem wordOfBytes_testBit (l : List Nat) (hl : ∀ b ∈ l, b < 256) :
    ∀ (k j : Nat), j < 8 → (wordOfBytes l).testBit (8 * k + j) = (l.getD k 0).testBit j := by
  induction l with
  | nil =>
    intro k j _
    simp [wordOfBytes, Nat.zero_testBit]
  | cons b t ih =>
    intro k j hj
    have hb : b < 256 := hl b (List.mem_cons_self b t)
    cases k with
    | zero =>
      rw [List.getD_cons_zero]
      simp only [wordOfBytes]
      rw [Nat.mul_zero, Nat.zero_add, addLow_testBit b (wordOfBytes t) j hb, if_pos hj]
    | succ k =>
      rw [List.getD_cons_succ]
      simp only [wordOfBytes]
      rw [addLow_testBit b (wordOfBytes t) _ hb, if_neg (by omega)]
      have harg : 8 * (k + 1) + j - 8 = 8 * k + j := by omega
      rw [harg]
      exact ih (fun y hy => hl y (List.mem_cons_of_mem b hy)) k j hj

theorem wordOfBytes_replicate_zero_append (k : Nat) (l : List Nat) :
    wordOfBytes (List.replicate k 0 ++ l) = 256 ^ k * wordOfBytes l := by
  induction k with
  | zero => simp
  | succ m ih =>
    show wordOfBytes (0 :: (List.replicate m 0 ++ l)) = 256 ^ (m + 1) * wordOfBytes l
    simp only [wordOfBytes]
    rw [ih, pow_succ]
    ring

theorem wordOfBytes_eq_zero_iff (l : List Nat) : wordOfBytes l = 0 ↔ ∀ b ∈ l, b = 0 := by
  induction l with
  | nil => simp [wordOfBytes]
  | cons b t ih =>
    simp only [wordOfBytes, List.mem_cons]
    constructor
    · intro h
      have hb : b = 0 := by omega
      have ht : wordOfBytes t = 0 := by omega
      intro y hy
      rcases hy with rfl | hy
      · exact hb
      · exact ih.mp ht y hy
    · intro h
      have hb : b = 0 := h b (Or.inl rfl)
      have ht : wordOfBytes t = 0 := ih.mpr (fun y hy => h y (Or.inr hy))
      omega

theorem tzAux_two_pow_mul_odd : ∀ (fuel s m : Nat), s < fuel → tzAux fuel (2 ^ s * (2 * m + 1)) = s := by
  intro fuel
  induction fuel with
  | zero => intro s m hs; omega
  | succ f ih =>
    intro s m hs
    cases s with
    | zero =>
      simp only [tzAux, pow_zero, Nat.one_mul]
      rw [if_pos (by omega)]
    | succ s2 =>
      have h2 : 2 ^ (s2 + 1) * (2 * m + 1) = 2 * (2 ^ s2 * (2 * m + 1)) := by
        rw [pow_succ]
        ring
      have heven : 2 ^ (s2 + 1) * (2 * m + 1) % 2 = 0 := by
        rw [h2]
        exact Nat.mul_mod_right 2 _
      simp only [tzAux]
      rw [if_neg (by omega)]
      have hdiv : 2 ^ (s2 + 1) * (2 * m + 1) / 2 = 2 ^ s2 * (2 * m + 1) := by
        rw [h2]
        exact Nat.mul_div_cancel_left _ (by norm_num)
      rw [hdiv, ih s2 m (by omega)]
      omega

theorem tz64_two_pow_mul_odd (s m : Nat) (hs : s < 64) : tz64 (2 ^ s * (2 * m + 1)) = s :=
  tzAux_two_pow_mul_odd 64 s m hs

theorem zipWith_maskByte_lt (ss : List Nat) : ∀ (xs : List Nat),
    ∀ y ∈ List.zipWith maskByte ss xs, y < 256 := by
  induction ss with
  | nil => intro xs y hy; exact absurd hy (by simp)
  | cons s t ih =>
    intro xs y hy
    cases xs with
    | nil => exact absurd hy (by simp)
    | cons x u =>
      rcases List.mem_cons.mp hy with h | h
      · rw [h]
        exact Nat.lt_of_le_of_lt (Nat.and_le_right) (by norm_num)
      · exact ih u y h

theorem swarMaskBytes_length (xs : List Nat) : (swarMaskBytes xs).length = xs.length := by
  simp [swarMaskBytes, List.length_zipWith, subOnes_length]

theorem swarMask_testBit (xs : List Nat) (hlen : xs.length = 8) (k : Nat) (hk : k < 8)
    (hx : xs.getD k 1 = 0) :
    (wordOfBytes (swarMaskBytes xs)).testBit (8 * k + 7) = true := by
  have hmask : (swarMaskBytes xs).getD k 0 = 0x80 :=
    swar_getD_zero xs 0 (by omega) k (by omega) hx
  rw [wordOfBytes_testBit (swarMaskBytes xs) (zipWith_maskByte_lt (subOnes xs 0) xs) k 7
    (by omega), hmask]
  decide

theorem swarMask_ne_zero (xs : List Nat) (hlen : xs.length = 8) (k : Nat) (hk : k < 8)
    (hx : xs.getD k 1 = 0) : wordOfBytes (swarMaskBytes xs) ≠ 0 := by
  intro h0
  have := swarMask_testBit xs hlen k hk hx
  rw [h0, Nat.zero_testBit] at this
  exact Bool.false_ne_true this

theorem swarMask_zero_of_no_zero (xs : List Nat) (hlt : ∀ x ∈ xs, x < 256)
    (hno : ∀ x ∈ xs, x ≠ 0) : wordOfBytes (swarMaskBytes xs) = 0 := by
  rw [show swarMaskBytes xs = List.zipWith maskByte (subOnes xs 0) xs from rfl,
    swar_nonzero_prefix xs (fun x hx => ⟨Nat.one_le_iff_ne_zero.mpr (hno x hx), hlt x hx⟩)]
  exact (wordOfBytes_eq_zero_iff _).mpr (fun b hb => List.eq_of_mem_replicate hb)

theorem swarMask_tz (xs : List Nat) (hlt : ∀ x ∈ xs, x < 256) (hlen : xs.length = 8)
    (k : Nat) (hk : k < 8) (hx : xs.getD k 1 = 0)
    (hlo : ∀ i, i < k → xs.getD i 1 ≠ 0) :
    tz64 (wordOfBytes (swarMaskBytes xs)) >>> 3 = k := by
  have hklen : k < xs.length := by omega
  have hxk : xs[k] = 0 := by
    rw [← List.getD_eq_getElem xs 1 hklen]
    exact hx
  have hsplitxs : xs = xs.take k ++ 0 :: xs.drop (k + 1) := by
    conv_lhs => rw [← List.take_append_drop k xs]
    congr 1
    rw [← hxk]
    exact (List.getElem_cons_drop xs k hklen).symm
  have htake : ∀ x ∈ xs.take k, 1 ≤ x ∧ x < 256 := by
    intro x hxm
    obtain ⟨i, hi, rfl⟩ := List.mem_iff_getElem.mp hxm
    have hik : i < k := by
      have := hi
      rw [List.length_take] at this
      omega
    have hixs : i < xs.length := by omega
    rw [List.getElem_take]
    refine ⟨Nat.one_le_iff_ne_zero.mpr ?_, hlt _ (List.getElem_mem hixs)⟩
    intro h0
    apply hlo i hik
    rw [List.getD_eq_getElem xs 1 hixs]
    exact h0
  have hmask : swarMaskBytes xs =
      List.replicate (xs.take k).length 0 ++ 0x80 :: List.zipWith maskByte
        (subOnes (xs.drop (k + 1)) 1) (xs.drop (k + 1)) := by
    rw [show swarMaskBytes xs = List.zipWith maskByte (subOnes xs 0) xs from rfl]
    conv_lhs => rw [hsplitxs]
    exact swar_split (xs.take k) (xs.drop (k + 1)) htake
  have hlentake : (xs.take k).length = k := by
    rw [List.length_take]
    omega
  rw [hmask, hlentake, wordOfBytes_replicate_zero_append]
  have hform : wordOfBytes (0x80 :: List.zipWith maskByte (subOnes (xs.drop (k + 1)) 1)
      (xs.drop (k + 1))) = 2 ^ 7 * (2 * (wordOfBytes (List.zipWith maskByte
      (subOnes (xs.drop (k + 1)) 1) (xs.drop (k + 1))) * 2 ^ 0) + 1) := by
    simp only [wordOfBytes]
    ring
  have h256k : (256 : Nat) ^ k = 2 ^ (8 * k) := by
    rw [show (256 : Nat) = 2 ^ 8 from by norm_num, ← pow_mul]
  rw [hform, h256k]
  have hcomb : 2 ^ (8 * k) * (2 ^ 7 * (2 * (wordOfBytes (List.zipWith maskByte
      (subOnes (xs.drop (k + 1)) 1) (xs.drop (k + 1))) * 2 ^ 0) + 1)) =
      2 ^ (8 * k + 7) * (2 * (wordOfBytes (List.zipWith maskByte
      (subOnes (xs.drop (k + 1)) 1) (xs.drop (k + 1)))) + 1) := by
    rw [pow_add]
    ring
  rw [hcomb, tz64_two_pow_mul_odd (8 * k + 7) _ (by omega), Nat.shiftRight_eq_div_pow]
  omega

theorem wordOfBytes_range_byteAt : ∀ (n w : Nat), w < 256 ^ n →
    wordOfBytes ((List.range n).map (fun i => byteAt w i)) = w := by
  intro n
  induction n with
  | zero =>
    intro w hw
    simp only [pow_zero] at hw
    interval_cases w
    rfl
  | succ m ih =>
    intro w hw
    rw [List.range_succ_eq_map]
    simp only [List.map_cons, List.map_map]
    have hmap : (List.range m).map ((fun i => byteAt w i) ∘ Nat.succ) =
        (List.range m).map (fun i => byteAt (w / 256) i) := by
      apply List.map_congr_left
      intro i _
      simp only [Function.comp, byteAt]
      rw [Nat.div_div_eq_div_mul]
      congr 2
      rw [pow_succ]
      ring
    have hdivlt : w / 256 < 256 ^ m := by
      rw [Nat.div_lt_iff_lt_mul (by norm_num)]
      rw [← pow_succ]
      exact hw
    simp only [wordOfBytes]
    rw [hmap, ih (w / 256) hdivlt]
    have h0 : byteAt w 0 = w % 256 := by simp [byteAt]
    rw [h0]
    omega

theorem bytesOf_lt (w : Nat) : ∀ b ∈ bytesOf w, b < 256 := by
  intro b hb
  obtain ⟨i, _, rfl⟩ := List.mem_map.mp hb
  exact Nat.mod_lt _ (by norm_num)

theorem bytesOf_length (w : Nat) : (bytesOf w).length = 8 := by simp [bytesOf]

theorem xsOf_getD (w k : Nat) (hk : k < 8) :
    ((bytesOf w).map (fun b => b ^^^ 0x3B)).getD k 1 = byteAt w k ^^^ 0x3B := by
  have hlen : k < ((bytesOf w).map (fun b => b ^^^ 0x3B)).length := by
    rw [List.length_map, bytesOf_length]
    omega
  rw [List.getD_eq_getElem _ 1 hlen]
  simp [bytesOf]

theorem findDelimiter_maskword (w : Nat) (hw : w < 2 ^ 64) :
    findDelimiter w = wordOfBytes (swarMaskBytes ((bytesOf w).map (fun b => b ^^^ 0x3B))) := by
  have hw2 : w < 256 ^ 8 := by
    have : (256 : Nat) ^ 8 = 2 ^ 64 := by norm_num
    omega
  conv_lhs => rw [← wordOfBytes_range_byteAt 8 w hw2]
  exact findDelimiter_bytes (bytesOf w) (bytesOf_lt w) (bytesOf_length w)

/-- Claim C4, amended. The claim asserted that `findDelimiter w` marks
exactly the ';' byte positions. The borrow of the SWAR subtraction can
set spurious high bits at non-';' bytes above the first ';' (see the
counterexample), so the amended statement keeps what the code
guarantees: the mask is zero iff `w` has no ';' byte; every ';' byte
position is marked; and the trailing-zero count divided by 8 locates
the first ';'. -/
theorem claim_C4_swar_mask (w : Nat) (hw : w < 2 ^ 64) :
    (findDelimiter w = 0 ↔ ∀ i, i < 8 → byteAt w i ≠ 0x3B) ∧
    (∀ k, k < 8 → byteAt w k = 0x3B → (findDelimiter w).testBit (8 * k + 7) = true) ∧
    (∀ k, k < 8 → byteAt w k = 0x3B → (∀ i, i < k → byteAt w i ≠ 0x3B) →
      tz64 (findDelimiter w) >>> 3 = k) := by
  have hfd := findDelimiter_maskword w hw
  have hxlen : ((bytesOf w).map (fun b => b ^^^ 0x3B)).length = 8 := by
    rw [List.length_map, bytesOf_length]
  have hxlt : ∀ x ∈ (bytesOf w).map (fun b => b ^^^ 0x3B), x < 256 :=
    map_xor_lt (bytesOf w) 0x3B (by norm_num) (bytesOf_lt w)
  refine ⟨⟨?_, ?_⟩, ?_, ?_⟩
  · intro h0 i hi hsemi
    have hxz : ((bytesOf w).map (fun b => b ^^^ 0x3B)).getD i 1 = 0 := by
      rw [xsOf_getD w i hi, hsemi]
      exact Nat.xor_self 0x3B
    exact swarMask_ne_zero _ hxlen i hi hxz (by rw [← hfd]; exact h0)
  · intro hno
    rw [hfd]
    apply swarMask_zero_of_no_zero _ hxlt
    intro x hxm
    obtain ⟨i, hi, rfl⟩ := List.mem_iff_getElem.mp hxm
    have hi8 : i < 8 := by omega
    rw [← List.getD_eq_getElem _ 1 hi, xsOf_getD w i hi8]
    intro hzero
    exact hno i hi8 (Nat.xor_eq_zero.mp hzero)
  · intro k hk hsemi
    rw [hfd]
    apply swarMask_testBit _ hxlen k hk
    rw [xsOf_getD w k hk, hsemi]
    exact Nat.xor_self 0x3B
  · intro k hk hsemi hfirst
    rw [hfd]
    apply swarMask_tz _ hxlt hxlen k hk
    · rw [xsOf_getD w k hk, hsemi]
      exact Nat.xor_self 0x3B
    · intro i hik
      have hi8 : i < 8 := by omega
      rw [xsOf_getD w i hi8]
      intro hzero
      exact hfirst i hik (Nat.xor_eq_zero.mp hzero)

/-- Counterexample to C4 as stated: in `w = 0x3A3B` the byte at index 1
is `0x3A`, not ';', yet the borrow from byte 0 (which is ';') makes
`findDelimiter` set its high bit: the mask is `0x8080`, not `0x80`. -/
theorem claim_C4_counterexample :
    ¬ (∀ w, w < 2 ^ 64 → ∀ k, k < 8 → byteAt w k ≠ 0x3B →
        byteAt (findDelimiter w) k = 0) := by
  intro h
  have := h 0x3A3B (by decide) 1 (by decide) (by decide)
  exact absurd this (by decide)

/-- Witness for the amended C4 at a concrete word. -/
theorem claim_C4_witness :
    ((0x3B : Nat) < 2 ^ 64 ∧ byteAt 0x3B 0 = 0x3B) ∧ tz64 (findDelimiter 0x3B) >>> 3 = 0 :=
  ⟨⟨by decide, by decide⟩,
   (claim_C4_swar_mask 0x3B (by decide)).2.2 0 (by decide) (by decide)
     (fun i hi => absurd hi (by omega))⟩


/-! Lemmas showing the branch-free decoder reads only the low bytes of
its word, so the bytes after the temperature record do not matter. -/

theorem testBit_ge_false (M i k : Nat) (hM : M < 2 ^ k) (hi : k ≤ i) : M.testBit i = false :=
  Nat.testBit_lt_two_pow (lt_of_lt_of_le hM (Nat.pow_le_pow_right (by norm_num) hi))

theorem testBit_mod_eq (x y k i : Nat) (hi : i < k) (hxy : x % 2 ^ k = y % 2 ^ k) :
    x.testBit i = y.testBit i := by
  have h1 := congrArg (fun z => z.testBit i) hxy
  simpa [Nat.testBit_mod_two_pow, hi] using h1

theorem i64not_and_mask_mod (x y M k : Nat) (hM : M < 2 ^ k) (hxy : x % 2 ^ k = y % 2 ^ k) :
    i64not x &&& M = i64not y &&& M := by
  apply Nat.eq_of_testBit_eq
  intro i
  rw [Nat.testBit_and, Nat.testBit_and]
  by_cases hi : i < k
  · simp only [i64not, Nat.testBit_xor, testBit_mod_eq x y k i hi hxy]
  · rw [testBit_ge_false M i k hM (by omega)]
    simp

theorem mod_and_mod (x y d k : Nat) (hxy : x % 2 ^ k = y % 2 ^ k) :
    (x &&& d) % 2 ^ k = (y &&& d) % 2 ^ k := by
  apply Nat.eq_of_testBit_eq
  intro i
  rw [Nat.testBit_mod_two_pow, Nat.testBit_mod_two_pow]
  by_cases hi : i < k
  · simp only [hi, decide_True, Bool.true_and, Nat.testBit_and,
      testBit_mod_eq x y k i hi hxy]
  · simp [hi]

theorem signed_eq_cond (w : Nat) :
    i64sar63 (i64not (i64shl w 59)) = if w.testBit 4 then 0 else U64 - 1 := by
  have hbit : (i64not (i64shl w 59)).testBit 63 = !(w.testBit 4) := by
    simp only [i64not, i64shl, U64]
    rw [Nat.testBit_xor, Nat.testBit_mod_two_pow, Nat.testBit_shiftLeft,
      Nat.testBit_two_pow_sub_one]
    norm_num
  rw [i64sar63, hbit]
  cases hw : w.testBit 4 <;> simp

theorem shl_and_mask_mod (x y s k M : Nat) (hM : M < 2 ^ 36) (h36 : 36 ≤ k + s)
    (hxy : x % 2 ^ k = y % 2 ^ k) :
    i64shl x s &&& M = i64shl y s &&& M := by
  apply Nat.eq_of_testBit_eq
  intro i
  rw [Nat.testBit_and, Nat.testBit_and]
  by_cases hi : i < 36
  · have hx : (i64shl x s).testBit i = (i64shl y s).testBit i := by
      simp only [i64shl, U64]
      rw [Nat.testBit_mod_two_pow, Nat.testBit_mod_two_pow]
      by_cases hi64 : i < 64
      · simp only [hi64, decide_True, Bool.true_and]
        rw [Nat.testBit_shiftLeft, Nat.testBit_shiftLeft]
        by_cases hsi : s ≤ i
        · simp only [hsi, decide_True, Bool.true_and]
          exact testBit_mod_eq x y k (i - s) (by omega) hxy
        · simp [hsi]
      · simp [hi64]
    rw [hx]
  · rw [testBit_ge_false M i 36 hM (by omega)]
    simp

theorem convert_mod (dsp k w y : Nat) (h36 : 36 ≤ k + (28 - dsp)) (h5 : 5 ≤ k)
    (hxy : w % 2 ^ k = y % 2 ^ k) :
    convertIntoNumber dsp w = convertIntoNumber dsp y := by
  have hbit4 : w.testBit 4 = y.testBit 4 := testBit_mod_eq w y k 4 (by omega) hxy
  have hsigned : i64sar63 (i64not (i64shl w 59)) = i64sar63 (i64not (i64shl y 59)) := by
    rw [signed_eq_cond, signed_eq_cond, hbit4]
  simp only [convertIntoNumber]
  rw [hsigned]
  have hdig : i64shl (w &&& i64not (i64sar63 (i64not (i64shl y 59)) &&& 0xFF)) (28 - dsp) &&&
      0x0F000F0F00 =
      i64shl (y &&& i64not (i64sar63 (i64not (i64shl y 59)) &&& 0xFF)) (28 - dsp) &&&
      0x0F000F0F00 :=
    shl_and_mask_mod _ _ (28 - dsp) k 0x0F000F0F00 (by norm_num) h36
      (mod_and_mod w y _ k hxy)
  rw [hdig]

theorem dsp_mod (k w y : Nat) (h29 : 29 ≤ k) (hxy : w % 2 ^ k = y % 2 ^ k) :
    tz64 (i64not w &&& 0x10101000) = tz64 (i64not y &&& 0x10101000) := by
  apply congrArg
  apply i64not_and_mask_mod w y 0x10101000 k _ hxy
  calc (0x10101000 : Nat) < 2 ^ 29 := by norm_num
    _ ≤ 2 ^ k := Nat.pow_le_pow_right (by norm_num) h29

theorem getLongAt_mod32 (region : Nat → Nat) (hreg : ∀ i, region i < 256) (q : Nat) :
    getLongAt region q % 2 ^ 32 =
      region q + 256 * region (q + 1) + 65536 * region (q + 2) + 16777216 * region (q + 3) := by
  have h : getLongAt region q =
      (region q + 256 * region (q + 1) + 65536 * region (q + 2) + 16777216 * region (q + 3)) +
        2 ^ 32 * (region (q + 4) + 256 * region (q + 5) + 65536 * region (q + 6) +
          16777216 * region (q + 7)) := by
    simp only [getLongAt]
    ring
  rw [h, Nat.add_mul_mod_self_left]
  apply Nat.mod_eq_of_lt
  have h0 := hreg q
  have h1 := hreg (q + 1)
  have h2 := hreg (q + 2)
  have h3 := hreg (q + 3)
  omega

theorem getLongAt_mod40 (region : Nat → Nat) (hreg : ∀ i, region i < 256) (q : Nat) :
    getLongAt region q % 2 ^ 40 =
      region q + 256 * region (q + 1) + 65536 * region (q + 2) + 16777216 * region (q + 3) +
        4294967296 * region (q + 4) := by
  have h : getLongAt region q =
      (region q + 256 * region (q + 1) + 65536 * region (q + 2) + 16777216 * region (q + 3) +
        4294967296 * region (q + 4)) +
        2 ^ 40 * (region (q + 5) + 256 * region (q + 6) + 65536 * region (q + 7)) := by
    simp only [getLongAt]
    ring
  rw [h, Nat.add_mul_mod_self_left]
  apply Nat.mod_eq_of_lt
  have h0 := hreg q
  have h1 := hreg (q + 1)
  have h2 := hreg (q + 2)
  have h3 := hreg (q + 3)
  have h4 := hreg (q + 4)
  omega

theorem layout_pos_single : ∀ d2 < 10, ∀ u < 10,
    tz64 (i64not ((48 + d2) + 256 * 46 + 65536 * (48 + u) + 16777216 * 10) &&& 0x10101000) = 12 ∧
    convertIntoNumber 12 ((48 + d2) + 256 * 46 + 65536 * (48 + u) + 16777216 * 10) =
      ((10 * d2 + u : Nat) : Int) := by
  decide

theorem layout_pos_double : ∀ d1 < 10, ∀ d2 < 10, ∀ u < 10,
    tz64 (i64not ((48 + d1) + 256 * (48 + d2) + 65536 * 46 + 16777216 * (48 + u) +
      4294967296 * 10) &&& 0x10101000) = 20 ∧
    convertIntoNumber 20 ((48 + d1) + 256 * (48 + d2) + 65536 * 46 + 16777216 * (48 + u) +
      4294967296 * 10) = ((100 * d1 + 10 * d2 + u : Nat) : Int) := by
  decide

theorem layout_neg_single : ∀ d2 < 10, ∀ u < 10,
    tz64 (i64not (45 + 256 * (48 + d2) + 65536 * 46 + 16777216 * (48 + u) +
      4294967296 * 10) &&& 0x10101000) = 20 ∧
    convertIntoNumber 20 (45 + 256 * (48 + d2) + 65536 * 46 + 16777216 * (48 + u) +
      4294967296 * 10) = -((10 * d2 + u : Nat) : Int) := by
  decide

theorem layout_neg_double : ∀ d1 < 10, ∀ d2 < 10, ∀ u < 10,
    tz64 (i64not (45 + 256 * (48 + d1) + 65536 * (48 + d2) + 16777216 * 46 +
      4294967296 * (48 + u)) &&& 0x10101000) = 28 ∧
    convertIntoNumber 28 (45 + 256 * (48 + d1) + 65536 * (48 + d2) + 16777216 * 46 +
      4294967296 * (48 + u)) = -((100 * d1 + 10 * d2 + u : Nat) : Int) := by
  decide

theorem scan_mod32_pos_single (region : Nat → Nat) (p d2 u : Nat)
    (hreg : ∀ i, region i < 256) (hd2 : d2 < 10) (hu : u < 10)
    (hb0 : region (p + 1) = 48 + d2) (hb1 : region (p + 1 + 1) = 46)
    (hb2 : region (p + 1 + 2) = 48 + u) (hb3 : region (p + 1 + 3) = 10) :
    getLongAt region (p + 1) % 2 ^ 32 =
      ((48 + d2) + 256 * 46 + 65536 * (48 + u) + 16777216 * 10) % 2 ^ 32 := by
  rw [getLongAt_mod32 region hreg (p + 1), hb0, hb1, hb2, hb3]
  exact (Nat.mod_eq_of_lt (by omega)).symm

theorem scan_dsp_pos_single (region : Nat → Nat) (p d2 u : Nat) (hd2 : d2 < 10) (hu : u < 10)
    (hw : getLongAt region (p + 1) % 2 ^ 32 =
      ((48 + d2) + 256 * 46 + 65536 * (48 + u) + 16777216 * 10) % 2 ^ 32) :
    tz64 (i64not (getLongAt region (p + 1)) &&& 0x10101000) = 12 := by
  rw [dsp_mod 32 (getLongAt region (p + 1))
    ((48 + d2) + 256 * 46 + 65536 * (48 + u) + 16777216 * 10) (by norm_num) hw,
    (layout_pos_single d2 hd2 u hu).1]

theorem scan_pos_single (region : Nat → Nat) (p d2 u : Nat) (hd2 : d2 < 10) (hu : u < 10)
    (hw : getLongAt region (p + 1) % 2 ^ 32 =
      ((48 + d2) + 256 * 46 + 65536 * (48 + u) + 16777216 * 10) % 2 ^ 32)
    (hdsp : tz64 (i64not (getLongAt region (p + 1)) &&& 0x10101000) = 12) :
    scanNumber region p = (((10 * d2 + u : Nat) : Int), p + 3 + 2) := by
  simp only [scanNumber]
  rw [hdsp, convert_mod 12 32 (getLongAt region (p + 1))
    ((48 + d2) + 256 * 46 + 65536 * (48 + u) + 16777216 * 10) (by norm_num) (by norm_num) hw,
    (layout_pos_single d2 hd2 u hu).2]
  norm_num
  omega

theorem scan_pos_double (region : Nat → Nat) (p d1 d2 u : Nat)
    (hd1 : d1 < 10) (hd2 : d2 < 10) (hu : u < 10)
    (hw : getLongAt region (p + 1) % 2 ^ 40 =
      ((48 + d1) + 256 * (48 + d2) + 65536 * 46 + 16777216 * (48 + u) +
        4294967296 * 10) % 2 ^ 40)
    (hdsp : tz64 (i64not (getLongAt region (p + 1)) &&& 0x10101000) = 20) :
    scanNumber region p = (((100 * d1 + 10 * d2 + u : Nat) : Int), p + 4 + 2) := by
  simp only [scanNumber]
  rw [hdsp, convert_mod 20 40 (getLongAt region (p + 1))
    ((48 + d1) + 256 * (48 + d2) + 65536 * 46 + 16777216 * (48 + u) + 4294967296 * 10)
    (by norm_num) (by norm_num) hw, (layout_pos_double d1 hd1 d2 hd2 u hu).2]
  norm_num
  omega

theorem scan_dsp_neg_single (region : Nat → Nat) (p d2 u : Nat) (hd2 : d2 < 10) (hu : u < 10)
    (hw : getLongAt region (p + 1) % 2 ^ 40 =
      (45 + 256 * (48 + d2) + 65536 * 46 + 16777216 * (48 + u) + 4294967296 * 10) % 2 ^ 40) :
    tz64 (i64not (getLongAt region (p + 1)) &&& 0x10101000) = 20 := by
  rw [dsp_mod 40 (getLongAt region (p + 1))
    (45 + 256 * (48 + d2) + 65536 * 46 + 16777216 * (48 + u) + 4294967296 * 10)
    (by norm_num) hw, (layout_neg_single d2 hd2 u hu).1]

theorem scan_neg_single (region : Nat → Nat) (p d2 u : Nat) (hd2 : d2 < 10) (hu : u < 10)
    (hw : getLongAt region (p + 1) % 2 ^ 40 =
      (45 + 256 * (48 + d2) + 65536 * 46 + 16777216 * (48 + u) + 4294967296 * 10) % 2 ^ 40)
    (hdsp : tz64 (i64not (getLongAt region (p + 1)) &&& 0x10101000) = 20) :
    scanNumber region p = (-((10 * d2 + u : Nat) : Int), p + 4 + 2) := by
  simp only [scanNumber]
  rw [hdsp, convert_mod 20 40 (getLongAt region (p + 1))
    (45 + 256 * (48 + d2) + 65536 * 46 + 16777216 * (48 + u) + 4294967296 * 10)
    (by norm_num) (by norm_num) hw, (layout_neg_single d2 hd2 u hu).2]
  norm_num
  omega

theorem scan_dsp_neg_double (region : Nat → Nat) (p d1 d2 u : Nat) (hd1 : d1 < 10)
    (hd2 : d2 < 10) (hu : u < 10)
    (hw : getLongAt region (p + 1) % 2 ^ 40 =
      (45 + 256 * (48 + d1) + 65536 * (48 + d2) + 16777216 * 46 +
        4294967296 * (48 + u)) % 2 ^ 40) :
    tz64 (i64not (getLongAt region (p + 1)) &&& 0x10101000) = 28 := by
  rw [dsp_mod 40 (getLongAt region (p + 1))
    (45 + 256 * (48 + d1) + 65536 * (48 + d2) + 16777216 * 46 + 4294967296 * (48 + u))
    (by norm_num) hw, (layout_neg_double d1 hd1 d2 hd2 u hu).1]

theorem scan_neg_double (region : Nat → Nat) (p d1 d2 u : Nat) (hd1 : d1 < 10)
    (hd2 : d2 < 10) (hu : u < 10)
    (hw : getLongAt region (p + 1) % 2 ^ 40 =
      (45 + 256 * (48 + d1) + 65536 * (48 + d2) + 16777216 * 46 +
        4294967296 * (48 + u)) % 2 ^ 40)
    (hdsp : tz64 (i64not (getLongAt region (p + 1)) &&& 0x10101000) = 28) :
    scanNumber region p = (-((100 * d1 + 10 * d2 + u : Nat) : Int), p + 5 + 2) := by
  simp only [scanNumber]
  rw [hdsp, convert_mod 28 40 (getLongAt region (p + 1))
    (45 + 256 * (48 + d1) + 65536 * (48 + d2) + 16777216 * 46 + 4294967296 * (48 + u))
    (by norm_num) (by norm_num) hw, (layout_neg_double d1 hd1 d2 hd2 u hu).2]
  norm_num
  omega

/-- **C3.** For every well-formed temperature field matching `-?\d{1,2}\.\d`
followed by a newline, with the scanner on the ';' that precedes it,
`scanNumber` returns the temperature in scaled tenths,
`sign · (100·h + 10·t + u)`, a value in [-999, 999], and advances the
scanner by `decimalSepPos/8 + 4` bytes, i.e. to the first byte after the
record's trailing newline. -/
theorem claim_C3_scanNumber_correct (region : Nat → Nat) (p d1 d2 u : Nat)
    (neg twoDigit : Bool)
    (hreg : ∀ i, region i < 256) (hd1 : d1 < 10) (hd2 : d2 < 10) (hu : u < 10)
    (hbytes : ∀ j, j < (tempChars neg twoDigit d1 d2 u).length →
      region (p + 1 + j) = (tempChars neg twoDigit d1 d2 u).getD j 0)
    (hnl : region (p + 1 + (tempChars neg twoDigit d1 d2 u).length) = 10) :
    scanNumber region p =
      (tempValue neg twoDigit d1 d2 u, p + (tempChars neg twoDigit d1 d2 u).length + 2) ∧
    -999 ≤ tempValue neg twoDigit d1 d2 u ∧ tempValue neg twoDigit d1 d2 u ≤ 999 := by
  cases neg <;> cases twoDigit
  · refine ⟨?_, by simp only [tempValue]; omega, by simp only [tempValue]; omega⟩
    have hb0 : region (p + 1) = 48 + d2 := hbytes 0 (by norm_num [tempChars])
    have hb1 : region (p + 1 + 1) = 46 := hbytes 1 (by norm_num [tempChars])
    have hb2 : region (p + 1 + 2) = 48 + u := hbytes 2 (by norm_num [tempChars])
    have hb3 : region (p + 1 + 3) = 10 := hnl
    have hw := scan_mod32_pos_single region p d2 u hreg hd2 hu hb0 hb1 hb2 hb3
    exact scan_pos_single region p d2 u hd2 hu hw (scan_dsp_pos_single region p d2 u hd2 hu hw)
  · refine ⟨?_, by simp only [tempValue]; omega, by simp only [tempValue]; omega⟩
    have hb0 : region (p + 1) = 48 + d1 := hbytes 0 (by norm_num [tempChars])
    have hb1 : region (p + 1 + 1) = 48 + d2 := hbytes 1 (by norm_num [tempChars])
    have hb2 : region (p + 1 + 2) = 46 := hbytes 2 (by norm_num [tempChars])
    have hb3 : region (p + 1 + 3) = 48 + u := hbytes 3 (by norm_num [tempChars])
    have hb4 : region (p + 1 + 4) = 10 := hnl
    have hw : getLongAt region (p + 1) % 2 ^ 40 =
        ((48 + d1) + 256 * (48 + d2) + 65536 * 46 + 16777216 * (48 + u) +
          4294967296 * 10) % 2 ^ 40 := by
      rw [getLongAt_mod40 region hreg (p + 1), hb0, hb1, hb2, hb3, hb4]
      exact (Nat.mod_eq_of_lt (by omega)).symm
    have hdsp : tz64 (i64not (getLongAt region (p + 1)) &&& 0x10101000) = 20 := by
      rw [dsp_mod 40 (getLongAt region (p + 1))
        ((48 + d1) + 256 * (48 + d2) + 65536 * 46 + 16777216 * (48 + u) + 4294967296 * 10)
        (by norm_num) hw, (layout_pos_double d1 hd1 d2 hd2 u hu).1]
    exact scan_pos_double region p d1 d2 u hd1 hd2 hu hw hdsp
  · refine ⟨?_, by simp only [tempValue]; omega, by simp only [tempValue]; omega⟩
    have hb0 : region (p + 1) = 45 := hbytes 0 (by norm_num [tempChars])
    have hb1 : region (p + 1 + 1) = 48 + d2 := hbytes 1 (by norm_num [tempChars])
    have hb2 : region (p + 1 + 2) = 46 := hbytes 2 (by norm_num [tempChars])
    have hb3 : region (p + 1 + 3) = 48 + u := hbytes 3 (by norm_num [tempChars])
    have hb4 : region (p + 1 + 4) = 10 := hnl
    have hw : getLongAt region (p + 1) % 2 ^ 40 =
        (45 + 256 * (48 + d2) + 65536 * 46 + 16777216 * (48 + u) +
          4294967296 * 10) % 2 ^ 40 := by
      rw [getLongAt_mod40 region hreg (p + 1), hb0, hb1, hb2, hb3, hb4]
      exact (Nat.mod_eq_of_lt (by omega)).symm
    exact scan_neg_single region p d2 u hd2 hu hw (scan_dsp_neg_single region p d2 u hd2 hu hw)
  · refine ⟨?_, by simp only [tempValue]; omega, by simp only [tempValue]; omega⟩
    have hb0 : region (p + 1) = 45 := hbytes 0 (by norm_num [tempChars])
    have hb1 : region (p + 1 + 1) = 48 + d1 := hbytes 1 (by norm_num [tempChars])
    have hb2 : region (p + 1 + 2) = 48 + d2 := hbytes 2 (by norm_num [tempChars])
    have hb3 : region (p + 1 + 3) = 46 := hbytes 3 (by norm_num [tempChars])
    have hb4 : region (p + 1 + 4) = 48 + u := hbytes 4 (by norm_num [tempChars])
    have hb5 : region (p + 1 + 5) = 10 := hnl
    have hw : getLongAt region (p + 1) % 2 ^ 40 =
        (45 + 256 * (48 + d1) + 65536 * (48 + d2) + 16777216 * 46 +
          4294967296 * (48 + u)) % 2 ^ 40 := by
      rw [getLongAt_mod40 region hreg (p + 1), hb0, hb1, hb2, hb3, hb4]
      exact (Nat.mod_eq_of_lt (by omega)).symm
    exact scan_neg_double region p d1 d2 u hd1 hd2 hu hw
      (scan_dsp_neg_double region p d1 d2 u hd1 hd2 hu hw)

/-- Witness for C3: the field `-42.3` after a ';' decodes to -423 tenths and
the scanner lands on the byte after the newline. -/
theorem claim_C3_witness :
    scanNumber (fun i => [59, 45, 52, 50, 46, 51, 10].getD i 0 % 256) 0 = (-423, 7) ∧
      ((-999 : Int) ≤ -423 ∧ (-423 : Int) ≤ 999) := by
  have h := claim_C3_scanNumber_correct
    (fun i => [59, 45, 52, 50, 46, 51, 10].getD i 0 % 256) 0 4 2 3 true true
    (fun i => Nat.mod_lt _ (by norm_num)) (by norm_num) (by norm_num) (by norm_num)
    (by decide) (by decide)
  refine ⟨?_, by norm_num⟩
  rw [h.1]
  norm_num [tempValue, tempChars]


theorem byteAt_wordOfBytes (xs : List Nat) : ∀ (k : Nat), (∀ b ∈ xs, b < 256) →
    byteAt (wordOfBytes xs) k = xs.getD k 0 := by
  induction xs with
  | nil =>
    intro k _
    simp [byteAt, wordOfBytes, Nat.zero_div]
  | cons b t ih =>
    intro k hb
    have hblt : b < 256 := hb b (List.mem_cons_self b t)
    cases k with
    | zero =>
      show (b + 256 * wordOfBytes t) / 256 ^ 0 % 256 = b
      rw [pow_zero, Nat.div_one, Nat.mul_comm 256 (wordOfBytes t),
        Nat.add_mul_mod_self_right]
      exact Nat.mod_eq_of_lt hblt
    | succ k2 =>
      show (b + 256 * wordOfBytes t) / 256 ^ (k2 + 1) % 256 = t.getD k2 0
      rw [pow_succ, Nat.mul_comm (256 ^ k2) 256, ← Nat.div_div_eq_div_mul,
        Nat.add_mul_div_left b (wordOfBytes t) (by norm_num),
        Nat.div_eq_of_lt hblt, Nat.zero_add]
      exact ih k2 (fun x hx => hb x (List.mem_cons_of_mem b hx))

theorem rangeMap_getD (f : Nat → Nat) (k : Nat) (hk : k < 8) :
    ((List.range 8).map f).getD k 0 = f k := by
  rw [List.getD_eq_getElem _ 0 (by simpa using hk)]
  simp

theorem getLongAt_eq_wordOfBytes (region : Nat → Nat) (q : Nat) :
    getLongAt region q = wordOfBytes ((List.range 8).map (fun i => region (q + i))) := by
  simp only [getLongAt, List.range_succ, List.range_zero, List.map_append, List.map_cons,
    List.map_nil, List.nil_append, List.cons_append, wordOfBytes]
  ring

theorem regionWord_lt (region : Nat → Nat) (hreg : ∀ i, region i < 256) (q : Nat) :
    ∀ b ∈ (List.range 8).map (fun i => region (q + i)), b < 256 := by
  intro b hb
  obtain ⟨i, _, rfl⟩ := List.mem_map.mp hb
  exact hreg (q + i)

theorem getLongAt_lt (region : Nat → Nat) (hreg : ∀ i, region i < 256) (q : Nat) :
    getLongAt region q < 2 ^ 64 := by
  rw [getLongAt_eq_wordOfBytes]
  have := wordOfBytes_lt _ (regionWord_lt region hreg q)
  simpa using this

theorem byteAt_getLongAt (region : Nat → Nat) (hreg : ∀ i, region i < 256) (q k : Nat)
    (hk : k < 8) : byteAt (getLongAt region q) k = region (q + k) := by
  rw [getLongAt_eq_wordOfBytes,
    byteAt_wordOfBytes _ k (regionWord_lt region hreg q), rangeMap_getD _ k hk]

theorem wordOfBytes_append (xs ys : List Nat) :
    wordOfBytes (xs ++ ys) = wordOfBytes xs + 256 ^ xs.length * wordOfBytes ys := by
  induction xs with
  | nil => simp [wordOfBytes]
  | cons b t ih =>
    rw [List.cons_append]
    simp only [wordOfBytes, List.length_cons]
    rw [ih, pow_succ]
    ring

theorem wordOfBytes_mod (xs : List Nat) (k : Nat) (hb : ∀ b ∈ xs, b < 256) :
    wordOfBytes xs % 2 ^ (8 * k) = wordOfBytes (xs.take k) := by
  conv_lhs => rw [← List.take_append_drop k xs, wordOfBytes_append]
  have htlt : wordOfBytes (xs.take k) < 256 ^ (xs.take k).length :=
    wordOfBytes_lt _ (fun b hbm => hb b (List.mem_of_mem_take hbm))
  by_cases hk : k ≤ xs.length
  · have hlen : (xs.take k).length = k := by
      rw [List.length_take]
      omega
    have h2 : (256 : Nat) ^ k = 2 ^ (8 * k) := by
      rw [show (256 : Nat) = 2 ^ 8 from by norm_num, ← pow_mul]
    rw [hlen, h2, Nat.add_mul_mod_self_left]
    apply Nat.mod_eq_of_lt
    have hpow : (256 : Nat) ^ (xs.take k).length = 2 ^ (8 * k) := by rw [hlen, h2]
    rw [← hpow]
    exact htlt
  · have hdrop : xs.drop k = [] := List.drop_eq_nil_of_le (by omega)
    have htake : xs.take k = xs := List.take_of_length_le (by omega)
    rw [hdrop, htake]
    show (wordOfBytes xs + 256 ^ xs.length * wordOfBytes []) % 2 ^ (8 * k) = wordOfBytes xs
    have hz : wordOfBytes [] = 0 := rfl
    rw [hz, Nat.mul_zero, Nat.add_zero]
    apply Nat.mod_eq_of_lt
    calc wordOfBytes xs < 256 ^ xs.length := by
          have := wordOfBytes_lt xs hb
          simpa using this
      _ = 2 ^ (8 * xs.length) := by
          rw [show (256 : Nat) = 2 ^ 8 from by norm_num, ← pow_mul]
      _ ≤ 2 ^ (8 * k) := Nat.pow_le_pow_right (by norm_num) (by omega)

theorem swarMask_tz_full (xs : List Nat) (hlt : ∀ x ∈ xs, x < 256) (hlen : xs.length = 8)
    (k : Nat) (hk : k < 8) (hx : xs.getD k 1 = 0)
    (hlo : ∀ i, i < k → xs.getD i 1 ≠ 0) :
    tz64 (wordOfBytes (swarMaskBytes xs)) = 8 * k + 7 := by
  have hklen : k < xs.length := by omega
  have hxk : xs[k] = 0 := by
    rw [← List.getD_eq_getElem xs 1 hklen]
    exact hx
  have hsplitxs : xs = xs.take k ++ 0 :: xs.drop (k + 1) := by
    conv_lhs => rw [← List.take_append_drop k xs]
    congr 1
    rw [← hxk]
    exact (List.getElem_cons_drop xs k hklen).symm
  have htake : ∀ x ∈ xs.take k, 1 ≤ x ∧ x < 256 := by
    intro x hxm
    obtain ⟨i, hi, rfl⟩ := List.mem_iff_getElem.mp hxm
    have hik : i < k := by
      have := hi
      rw [List.length_take] at this
      omega
    have hixs : i < xs.length := by omega
    rw [List.getElem_take]
    refine ⟨Nat.one_le_iff_ne_zero.mpr ?_, hlt _ (List.getElem_mem hixs)⟩
    intro h0
    apply hlo i hik
    rw [List.getD_eq_getElem xs 1 hixs]
    exact h0
  have hmask : swarMaskBytes xs =
      List.replicate (xs.take k).length 0 ++ 0x80 :: List.zipWith maskByte
        (subOnes (xs.drop (k + 1)) 1) (xs.drop (k + 1)) := by
    rw [show swarMaskBytes xs = List.zipWith maskByte (subOnes xs 0) xs from rfl]
    conv_lhs => rw [hsplitxs]
    exact swar_split (xs.take k) (xs.drop (k + 1)) htake
  have hlentake : (xs.take k).length = k := by
    rw [List.length_take]
    omega
  rw [hmask, hlentake, wordOfBytes_replicate_zero_append]
  have hform : wordOfBytes (0x80 :: List.zipWith maskByte (subOnes (xs.drop (k + 1)) 1)
      (xs.drop (k + 1))) = 2 ^ 7 * (2 * (wordOfBytes (List.zipWith maskByte
      (subOnes (xs.drop (k + 1)) 1) (xs.drop (k + 1))) * 2 ^ 0) + 1) := by
    simp only [wordOfBytes]
    ring
  have h256k : (256 : Nat) ^ k = 2 ^ (8 * k) := by
    rw [show (256 : Nat) = 2 ^ 8 from by norm_num, ← pow_mul]
  rw [hform, h256k]
  have hcomb : 2 ^ (8 * k) * (2 ^ 7 * (2 * (wordOfBytes (List.zipWith maskByte
      (subOnes (xs.drop (k + 1)) 1) (xs.drop (k + 1))) * 2 ^ 0) + 1)) =
      2 ^ (8 * k + 7) * (2 * (wordOfBytes (List.zipWith maskByte
      (subOnes (xs.drop (k + 1)) 1) (xs.drop (k + 1)))) + 1) := by
    rw [pow_add]
    ring
  rw [hcomb]
  exact tz64_two_pow_mul_odd (8 * k + 7) _ (by omega)

theorem xorList_getD (region : Nat → Nat) (hreg : ∀ i, region i < 256) (q k : Nat)
    (hk : k < 8) :
    ((bytesOf (getLongAt region q)).map (fun b => b ^^^ 0x3B)).getD k 1 =
      region (q + k) ^^^ 59 := by
  rw [xsOf_getD (getLongAt region q) k hk, byteAt_getLongAt region hreg q k hk]

theorem xorList_length (w : Nat) :
    ((bytesOf w).map (fun b => b ^^^ 0x3B)).length = 8 := by
  rw [List.length_map, bytesOf_length]

theorem xorList_lt (w : Nat) :
    ∀ x ∈ (bytesOf w).map (fun b => b ^^^ 0x3B), x < 256 := by
  intro x hx
  obtain ⟨b, hb, rfl⟩ := List.mem_map.mp hx
  have h1 : b < 256 := bytesOf_lt w b hb
  calc b ^^^ 0x3B < 2 ^ 8 := Nat.xor_lt_two_pow (by omega) (by norm_num)
    _ = 256 := by norm_num

theorem fd_ne_zero (region : Nat → Nat) (hreg : ∀ i, region i < 256) (q k : Nat)
    (hk : k < 8) (hsemi : region (q + k) = 59) :
    findDelimiter (getLongAt region q) ≠ 0 := by
  rw [findDelimiter_maskword _ (getLongAt_lt region hreg q)]
  apply swarMask_ne_zero _ (xorList_length _) k hk
  rw [xorList_getD region hreg q k hk, hsemi]
  exact Nat.xor_self 59

theorem fd_zero (region : Nat → Nat) (hreg : ∀ i, region i < 256) (q : Nat)
    (hno : ∀ i, i < 8 → region (q + i) ≠ 59) :
    findDelimiter (getLongAt region q) = 0 := by
  rw [findDelimiter_maskword _ (getLongAt_lt region hreg q)]
  apply swarMask_zero_of_no_zero _ (xorList_lt _)
  intro x hx
  obtain ⟨b, hb, rfl⟩ := List.mem_map.mp hx
  simp only [bytesOf] at hb
  obtain ⟨i, hir, rfl⟩ := List.mem_map.mp hb
  have hi : i < 8 := List.mem_range.mp hir
  intro h0
  apply hno i hi
  rw [← byteAt_getLongAt region hreg q i hi]
  exact Nat.xor_eq_zero.mp h0

theorem fd_tz (region : Nat → Nat) (hreg : ∀ i, region i < 256) (q k : Nat)
    (hk : k < 8) (hsemi : region (q + k) = 59)
    (hlo : ∀ i, i < k → region (q + i) ≠ 59) :
    tz64 (findDelimiter (getLongAt region q)) = 8 * k + 7 := by
  rw [findDelimiter_maskword _ (getLongAt_lt region hreg q)]
  apply swarMask_tz_full _ (xorList_lt _) (xorList_length _) k hk
  · rw [xorList_getD region hreg q k hk, hsemi]
    exact Nat.xor_self 59
  · intro i hik
    rw [xorList_getD region hreg q i (by omega)]
    intro h0
    exact hlo i hik (Nat.xor_eq_zero.mp h0)

theorem or_ne_zero_left (x y : Nat) (hx : x ≠ 0) : x ||| y ≠ 0 := by
  obtain ⟨i, hi⟩ := Nat.ne_zero_implies_bit_true hx
  intro h
  have := congrArg (fun z => Nat.testBit z i) h
  simp only [Nat.testBit_or, Nat.zero_testBit, Bool.or_eq_false_iff] at this
  rw [hi] at this
  exact Bool.false_ne_true this.1.symm

theorem or_ne_zero_right (x y : Nat) (hy : y ≠ 0) : x ||| y ≠ 0 := by
  obtain ⟨i, hi⟩ := Nat.ne_zero_implies_bit_true hy
  intro h
  have := congrArg (fun z => Nat.testBit z i) h
  simp only [Nat.testBit_or, Nat.zero_testBit, Bool.or_eq_false_iff] at this
  rw [hi] at this
  exact Bool.false_ne_true this.2.symm

theorem tz64_zero : tz64 0 = 64 := by decide

theorem tz_div8 (k : Nat) : (8 * k + 7) >>> 3 = k := by
  rw [Nat.shiftRight_eq_div_pow]
  omega

theorem MASK1_getD_le7 (k : Nat) (hk : k ≤ 7) :
    MASK1.getD k 0 = 2 ^ (8 * (k + 1)) - 1 := by
  interval_cases k <;> decide

theorem MASK1_getD_8 : MASK1.getD 8 0 = 2 ^ 64 - 1 := by decide

theorem MASK2_getD_le7 (k : Nat) (hk : k ≤ 7) : MASK2.getD k 0 = 0 := by
  interval_cases k <;> decide

theorem MASK2_getD_8 : MASK2.getD 8 0 = 2 ^ 64 - 1 := by decide

theorem region_take_eq (region : Nat → Nat) (q m : Nat) (l : List Nat) (hlen : l.length = m)
    (hm : m ≤ 8) (h : ∀ j, j < m → region (q + j) = l.getD j 0) :
    ((List.range 8).map (fun i => region (q + i))).take m = l := by
  apply List.ext_getElem
  · simp only [List.length_take, List.length_map, List.length_range, hlen]
    omega
  · intro i h1 h2
    rw [List.getElem_take]
    simp only [List.getElem_map, List.getElem_range]
    rw [h i (by omega), List.getD_eq_getElem l 0 (by omega)]

theorem region_word_eq (region : Nat → Nat) (q : Nat) (l : List Nat) (hlen : l.length = 8)
    (h : ∀ j, j < 8 → region (q + j) = l.getD j 0) :
    (List.range 8).map (fun i => region (q + i)) = l := by
  have := region_take_eq region q 8 l hlen (le_refl 8) h
  rwa [List.take_of_length_le (by simp)] at this

theorem shl_take (xs : List Nat) (m : Nat) (hm : m ≤ 8) (hlen : xs.length = 8) :
    i64shl (wordOfBytes xs) (64 - 8 * m) = i64shl (wordOfBytes (xs.take m)) (64 - 8 * m) := by
  conv_lhs => rw [← List.take_append_drop m xs]
  rw [wordOfBytes_append]
  have hlt : (xs.take m).length = m := by
    rw [List.length_take]
    omega
  rw [hlt]
  simp only [i64shl, Nat.shiftLeft_eq, U64]
  have h256 : (256 : Nat) ^ m = 2 ^ (8 * m) := by
    rw [show (256 : Nat) = 2 ^ 8 from by norm_num, ← pow_mul]
  rw [h256]
  have hexp : (2 : Nat) ^ (8 * m) * 2 ^ (64 - 8 * m) = 2 ^ 64 := by
    rw [← pow_add]
    congr 1
    omega
  have hdist : (wordOfBytes (xs.take m) + 2 ^ (8 * m) * wordOfBytes (xs.drop m)) *
      2 ^ (64 - 8 * m) =
      wordOfBytes (xs.take m) * 2 ^ (64 - 8 * m) +
        2 ^ (8 * m) * 2 ^ (64 - 8 * m) * wordOfBytes (xs.drop m) := by
    ring
  rw [hdist, hexp, Nat.add_mul_mod_self_left]

theorem tailFold_short (l : List Nat) (hl : l.length ≤ 8) :
    tailFold l = i64shl (wordOfBytes l) (64 - 8 * l.length) := by
  rcases l with _ | ⟨b0, _ | ⟨b1, _ | ⟨b2, _ | ⟨b3, _ | ⟨b4, _ | ⟨b5, _ | ⟨b6, _ |
    ⟨b7, _ | ⟨b8, rest⟩⟩⟩⟩⟩⟩⟩⟩⟩
  · rfl
  · rfl
  · rfl
  · rfl
  · rfl
  · rfl
  · rfl
  · rfl
  · rfl
  · simp at hl

theorem tailFold_long (l : List Nat) (hl : 9 ≤ l.length) :
    tailFold l = wordOfBytes (l.take 8) ^^^ tailFold (l.drop 8) := by
  rcases l with _ | ⟨b0, _ | ⟨b1, _ | ⟨b2, _ | ⟨b3, _ | ⟨b4, _ | ⟨b5, _ | ⟨b6, _ |
    ⟨b7, _ | ⟨b8, rest⟩⟩⟩⟩⟩⟩⟩⟩⟩
  · simp at hl
  · simp at hl
  · simp at hl
  · simp at hl
  · simp at hl
  · simp at hl
  · simp at hl
  · simp at hl
  · simp at hl
  · rfl

theorem getD_drop (l : List Nat) (m j : Nat) : (l.drop m).getD j 0 = l.getD (m + j) 0 := by
  rw [List.getD_eq_getElem?_getD, List.getD_eq_getElem?_getD, List.getElem?_drop]

theorem getD_append_sing (l : List Nat) (x : Nat) : (l ++ [x]).getD l.length 0 = x := by
  rw [List.getD_eq_getElem?_getD, List.getElem?_concat_length]
  rfl

theorem getD_append_left_ (l l2 : List Nat) (j : Nat) (hj : j < l.length) :
    (l ++ l2).getD j 0 = l.getD j 0 := by
  rw [List.getD_eq_getElem?_getD, List.getD_eq_getElem?_getD, List.getElem?_append_left hj]

theorem getD_take_ (l : List Nat) (m j : Nat) (hj : j < m) :
    (l.take m).getD j 0 = l.getD j 0 := by
  rw [List.getD_eq_getElem?_getD, List.getD_eq_getElem?_getD, List.getElem?_take, if_pos hj]

theorem hashLoop_name (region : Nat → Nat) (hreg : ∀ i, region i < 256) :
    ∀ (fuel q h : Nat) (rs : List Nat),
    (∀ j, j < rs.length → region (q + j) = rs.getD j 0) →
    region (q + rs.length) = 59 →
    (∀ b ∈ rs, b ≠ 59) →
    rs.length < 8 * fuel →
    hashLoop region fuel q h = some (h ^^^ tailFold (rs ++ [59]), q + rs.length) := by
  intro fuel
  induction fuel with
  | zero =>
    intro q h rs _ _ _ hlen
    omega
  | succ f ih =>
    intro q h rs hn hsemi hno hlen
    by_cases hs : rs.length ≤ 7
    · have hlo : ∀ i, i < rs.length → region (q + i) ≠ 59 := by
        intro i hik
        rw [hn i (by omega), List.getD_eq_getElem rs 0 (by omega)]
        exact hno _ (List.getElem_mem _)
      have hfd := fd_tz region hreg q rs.length (by omega) hsemi hlo
      have hne := fd_ne_zero region hreg q rs.length (by omega) hsemi
      simp only [hashLoop]
      rw [if_pos hne, hfd, tz_div8 rs.length,
        show 63 - (8 * rs.length + 7) = 64 - 8 * (rs.length + 1) from by omega,
        getLongAt_eq_wordOfBytes region q,
        shl_take _ (rs.length + 1) (by omega) (by simp),
        region_take_eq region q (rs.length + 1) (rs ++ [59]) (by simp) (by omega) ?bytes,
        tailFold_short (rs ++ [59]) (by simp; omega)]
      · simp only [List.length_append, List.length_cons, List.length_nil]
      case bytes =>
        intro j hj
        by_cases hjk : j < rs.length
        · rw [hn j hjk, getD_append_left_ rs [59] j hjk]
        · have hj2 : j = rs.length := by omega
          subst hj2
          rw [hsemi, getD_append_sing]
    · have hdm : findDelimiter (getLongAt region q) = 0 := by
        apply fd_zero region hreg q
        intro i hi8
        rw [hn i (by omega), List.getD_eq_getElem rs 0 (by omega)]
        exact hno _ (List.getElem_mem _)
      have hw8 : (List.range 8).map (fun i => region (q + i)) = rs.take 8 := by
        apply region_word_eq region q (rs.take 8) (by rw [List.length_take]; omega)
        intro j hj8
        rw [hn j (by omega), getD_take_ rs 8 j hj8]
      simp only [hashLoop]
      rw [if_neg (fun hc => hc hdm), getLongAt_eq_wordOfBytes region q, hw8,
        ih (q + 8) (h ^^^ wordOfBytes (rs.take 8)) (rs.drop 8) ?bn ?bsemi ?bno ?blen]
      · rw [tailFold_long (rs ++ [59]) (by simp; omega),
          List.take_append_of_le_length (by omega),
          List.drop_append_of_le_length (by omega), ← Nat.xor_assoc]
        have hpos : q + 8 + (rs.drop 8).length = q + rs.length := by
          simp only [List.length_drop]
          omega
        rw [hpos]
      case bn =>
        intro j hj
        rw [show q + 8 + j = q + (8 + j) from by omega,
          hn (8 + j) (by simp only [List.length_drop] at hj; omega), getD_drop rs 8 j]
      case bsemi =>
        rw [show q + 8 + (rs.drop 8).length = q + rs.length from by
          simp only [List.length_drop]; omega]
        exact hsemi
      case bno =>
        intro b hb
        exact hno b (List.mem_of_mem_drop hb)
      case blen =>
        simp only [List.length_drop]
        omega

theorem findResultHash_name (region : Nat → Nat) (fuel p : Nat) (ns : List Nat)
    (hreg : ∀ i, region i < 256)
    (hn : ∀ j, j < ns.length → region (p + j) = ns.getD j 0)
    (hsemi : region (p + ns.length) = 59)
    (hno : ∀ b ∈ ns, b ≠ 59)
    (hfl : ns.length ≤ 8 * fuel + 15) :
    findResultHash region fuel p = some (nameHash ns, p + ns.length) := by
  have hloN : ∀ i, i < ns.length → region (p + i) ≠ 59 := by
    intro i hi
    rw [hn i hi, List.getD_eq_getElem ns 0 hi]
    exact hno _ (List.getElem_mem _)
  by_cases h7 : ns.length ≤ 7
  · have hne1 := fd_ne_zero region hreg p ns.length (by omega) hsemi
    have htz1 := fd_tz region hreg p ns.length (by omega) hsemi hloN
    have hlistA : ((List.range 8).map (fun i => region (p + i))).take (ns.length + 1) =
        ns ++ [59] := by
      apply region_take_eq region p (ns.length + 1) (ns ++ [59]) (by simp) (by omega)
      intro j hj
      by_cases hjk : j < ns.length
      · rw [hn j hjk, getD_append_left_ ns [59] j hjk]
      · have hj2 : j = ns.length := by omega
        subst hj2
        rw [hsemi, getD_append_sing]
    simp only [findResultHash]
    rw [if_pos (or_ne_zero_left _ _ hne1), htz1, tz_div8 ns.length,
      MASK2_getD_le7 ns.length (by omega), MASK1_getD_le7 ns.length (by omega)]
    simp only [Nat.zero_and, Nat.xor_zero, Nat.and_zero, Nat.add_zero]
    rw [Nat.and_pow_two_sub_one_eq_mod, getLongAt_eq_wordOfBytes region p,
      wordOfBytes_mod _ (ns.length + 1) (regionWord_lt region hreg p), hlistA]
    simp only [nameHash, if_pos h7]
  by_cases h15 : ns.length ≤ 15
  · have hsemi2 : region (p + 8 + (ns.length - 8)) = 59 := by
      rw [show p + 8 + (ns.length - 8) = p + ns.length from by omega]
      exact hsemi
    have hdm1 : findDelimiter (getLongAt region p) = 0 := by
      apply fd_zero region hreg p
      intro i hi8
      exact hloN i (by omega)
    have hne2 := fd_ne_zero region hreg (p + 8) (ns.length - 8) (by omega) hsemi2
    have htz2 : tz64 (findDelimiter (getLongAt region (p + 8))) =
        8 * (ns.length - 8) + 7 := by
      apply fd_tz region hreg (p + 8) (ns.length - 8) (by omega) hsemi2
      intro i hi
      rw [show p + 8 + i = p + (8 + i) from by omega]
      exact hloN (8 + i) (by omega)
    have hw1B : (List.range 8).map (fun i => region (p + i)) = ns.take 8 := by
      apply region_word_eq region p (ns.take 8) (by rw [List.length_take]; omega)
      intro j hj8
      rw [hn j (by omega), getD_take_ ns 8 j hj8]
    have hlistB : ((List.range 8).map (fun i => region (p + 8 + i))).take
        (ns.length - 8 + 1) = ns.drop 8 ++ [59] := by
      apply region_take_eq region (p + 8) (ns.length - 8 + 1) (ns.drop 8 ++ [59])
        (by simp) (by omega)
      intro j hj
      by_cases hjk : j < ns.length - 8
      · rw [show p + 8 + j = p + (8 + j) from by omega, hn (8 + j) (by omega),
          getD_append_left_ _ [59] j (by simp only [List.length_drop]; omega),
          getD_drop ns 8 j]
      · have hj2 : j = (ns.drop 8).length := by
          simp only [List.length_drop]
          omega
        subst hj2
        rw [getD_append_sing,
          show p + 8 + (ns.drop 8).length = p + ns.length from by
            simp only [List.length_drop]; omega]
        exact hsemi
    simp only [findResultHash]
    rw [if_pos (or_ne_zero_right _ _ hne2), hdm1, tz64_zero,
      show (64 : Nat) >>> 3 = 8 from by decide, htz2, tz_div8 (ns.length - 8),
      MASK1_getD_8, MASK2_getD_8, MASK1_getD_le7 (ns.length - 8) (by omega),
      Nat.and_pow_two_sub_one_eq_mod (getLongAt region p) 64,
      Nat.mod_eq_of_lt (getLongAt_lt region hreg p),
      Nat.and_comm (2 ^ 64 - 1) (getLongAt region (p + 8)),
      Nat.and_pow_two_sub_one_eq_mod (getLongAt region (p + 8)) 64,
      Nat.mod_eq_of_lt (getLongAt_lt region hreg (p + 8)),
      Nat.and_pow_two_sub_one_eq_mod (getLongAt region (p + 8)) (8 * (ns.length - 8 + 1)),
      Nat.and_pow_two_sub_one_eq_mod (ns.length - 8) 64,
      Nat.mod_eq_of_lt (show ns.length - 8 < 2 ^ 64 from by omega),
      getLongAt_eq_wordOfBytes region p, hw1B,
      getLongAt_eq_wordOfBytes region (p + 8),
      wordOfBytes_mod _ (ns.length - 8 + 1) (regionWord_lt region hreg (p + 8)), hlistB,
      show 8 + (ns.length - 8) = ns.length from by omega]
    simp only [nameHash, if_neg (show ¬ ns.length ≤ 7 from h7), if_pos h15]
  · have hdm1 : findDelimiter (getLongAt region p) = 0 := by
      apply fd_zero region hreg p
      intro i hi8
      exact hloN i (by omega)
    have hdm2 : findDelimiter (getLongAt region (p + 8)) = 0 := by
      apply fd_zero region hreg (p + 8)
      intro i hi8
      rw [show p + 8 + i = p + (8 + i) from by omega]
      exact hloN (8 + i) (by omega)
    have hw1C : (List.range 8).map (fun i => region (p + i)) = ns.take 8 := by
      apply region_word_eq region p (ns.take 8) (by rw [List.length_take]; omega)
      intro j hj8
      rw [hn j (by omega), getD_take_ ns 8 j hj8]
    have hw2C : (List.range 8).map (fun i => region (p + 8 + i)) = (ns.drop 8).take 8 := by
      apply region_word_eq region (p + 8) ((ns.drop 8).take 8)
        (by simp only [List.length_take, List.length_drop]; omega)
      intro j hj8
      rw [show p + 8 + j = p + (8 + j) from by omega, hn (8 + j) (by omega),
        getD_take_ _ 8 j hj8, getD_drop ns 8 j]
    have hloop : hashLoop region fuel (p + 16)
        (wordOfBytes (ns.take 8) ^^^ wordOfBytes ((ns.drop 8).take 8)) =
        some ((wordOfBytes (ns.take 8) ^^^ wordOfBytes ((ns.drop 8).take 8)) ^^^
          tailFold (ns.drop 16 ++ [59]), p + 16 + (ns.drop 16).length) := by
      apply hashLoop_name region hreg fuel (p + 16) _ (ns.drop 16)
      · intro j hj
        rw [show p + 16 + j = p + (16 + j) from by omega,
          hn (16 + j) (by simp only [List.length_drop] at hj; omega), getD_drop ns 16 j]
      · rw [show p + 16 + (ns.drop 16).length = p + ns.length from by
          simp only [List.length_drop]; omega]
        exact hsemi
      · intro b hb
        exact hno b (List.mem_of_mem_drop hb)
      · simp only [List.length_drop]
        omega
    simp only [findResultHash]
    rw [hdm1, hdm2, if_neg (by decide), getLongAt_eq_wordOfBytes region p, hw1C,
      getLongAt_eq_wordOfBytes region (p + 8), hw2C, hloop,
      show p + 16 + (ns.drop 16).length = p + ns.length from by
        simp only [List.length_drop]; omega]
    simp only [nameHash, if_neg (show ¬ ns.length ≤ 7 from h7),
      if_neg (show ¬ ns.length ≤ 15 from h15)]

/-- **C5.** The hash key `findResult` computes (the pure hash part,
`findResultHash`) is a function of the station name bytes alone: for any
two well-formed records, in possibly different regions and at different
positions, whose names are byte-for-byte equal, both computations succeed,
return the same 64-bit key `nameHash ns` — the masked first word, the XOR
of two masked words, or an XOR-fold, per the spec's three cases — and
leave the scanner on the ';'. Under hash-injectivity on the file's names,
all observations of one station therefore aggregate in one table slot. -/
theorem claim_C5_hash_function_of_name (region region2 : Nat → Nat)
    (fuel fuel2 p p2 : Nat) (ns : List Nat)
    (hreg : ∀ i, region i < 256) (hreg2 : ∀ i, region2 i < 256)
    (hn : ∀ j, j < ns.length → region (p + j) = ns.getD j 0)
    (hn2 : ∀ j, j < ns.length → region2 (p2 + j) = ns.getD j 0)
    (hsemi : region (p + ns.length) = 59)
    (hsemi2 : region2 (p2 + ns.length) = 59)
    (hno : ∀ b ∈ ns, b ≠ 59)
    (hlen1 : 1 ≤ ns.length) (hlen100 : ns.length ≤ 100)
    (hf : 11 ≤ fuel) (hf2 : 11 ≤ fuel2) :
    findResultHash region fuel p = some (nameHash ns, p + ns.length) ∧
    findResultHash region2 fuel2 p2 = some (nameHash ns, p2 + ns.length) :=
  ⟨findResultHash_name region fuel p ns hreg hn hsemi hno (by omega),
   findResultHash_name region2 fuel2 p2 ns hreg2 hn2 hsemi2 hno (by omega)⟩

/-- Witness for C5: the records `a;1.2\n` at offset 0 and `a;9.9\n` at
offset 2 of another region hash to the same key 15201 = 0x3B61. -/
theorem claim_C5_witness :
    findResultHash (fun i => [97, 59, 49, 46, 50, 10].getD i 0 % 256) 11 0 =
      some (15201, 1) ∧
    findResultHash (fun i => [98, 98, 97, 59, 57, 46, 57, 10].getD i 0 % 256) 11 2 =
      some (15201, 3) := by
  have h := claim_C5_hash_function_of_name
    (fun i => [97, 59, 49, 46, 50, 10].getD i 0 % 256)
    (fun i => [98, 98, 97, 59, 57, 46, 57, 10].getD i 0 % 256)
    11 11 0 2 [97]
    (fun i => Nat.mod_lt _ (by norm_num)) (fun i => Nat.mod_lt _ (by norm_num))
    (by decide) (by decide) (by decide) (by decide) (by decide)
    (by decide) (by decide) (by norm_num) (by norm_num)
  obtain ⟨h1, h2⟩ := h
  constructor
  · rw [h1]
    decide
  · rw [h2]
    decide

end OneBRC